import Mathlib

/-!
Verification of the DWARF debug-information engine of the `cdp-gdb-bridge`
repository (crate `crates/dwarf`), against its natural-language specification.

The Rust sources are shallowly embedded: machine integers (`u64`, `u32`) are
modelled as `Nat` with explicit reductions modulo `2 ^ 64` where the code can
wrap; fallible Rust functions (`anyhow::Result`) become `Except String`;
Rust panics (`unreachable!`, arithmetic overflow in checked builds, slice
index out of bounds) are modelled as `Except.error` as well, with a message
marking the panic site.  Gimli readers over byte slices become `List Nat`
(one `Nat` per byte).  `BTreeMap`-backed tables become sorted association
lists built by sorted insertion.
-/

namespace CdpGdbBridge

/-- Little-endian unsigned integer from a byte list (first byte is the least
significant), as `BigUint::from_bytes_le` / `u32::from_le_bytes` compute it. -/
def fromBytesLE : List Nat → Nat
  | [] => 0
  | b :: bs => b % 256 + 256 * fromBytesLE bs

/-- Little-endian two's-complement signed integer of width `8 * length`,
as `BigInt::from_signed_bytes_le` computes it.  The empty list denotes 0. -/
def fromSignedBytesLE (bs : List Nat) : Int :=
  let n := fromBytesLE bs
  if 2 * n < 2 ^ (8 * bs.length) then (n : Int)
  else (n : Int) - 2 ^ (8 * bs.length)

/-- Little-endian byte list of a `Nat`, `width` bytes (`u16/u32/u64::to_le_bytes`). -/
def toLeBytes (width n : Nat) : List Nat :=
  match width with
  | 0 => []
  | w + 1 => n % 256 :: toLeBytes w (n / 256)

/-! ## Gimli byte readers

The `gimli::Reader` operations used by `read_wasm_location`
(`crates/dwarf/src/dwarf/subroutine.rs`): `read_u8`, `read_u32` (little
endian) and `read_uleb128`.  A reader is the list of not-yet-consumed bytes;
each operation returns the value read and the remaining bytes, or an error
at end of input (or, for ULEB128, on a value overflowing 64 bits, as gimli
reports `BadUnsignedLeb128`). -/

def read_u8 : List Nat → Except String (Nat × List Nat)
  | [] => .error "unexpected end of input"
  | b :: rest => .ok (b, rest)

def read_u32 (bytes : List Nat) : Except String (Nat × List Nat) :=
  match bytes with
  | b0 :: b1 :: b2 :: b3 :: rest => .ok (fromBytesLE [b0, b1, b2, b3], rest)
  | _ => .error "unexpected end of input"

/-- Loop of gimli's unsigned LEB128 decoder for `u64`: seven payload bits per
byte, continuation in the high bit; at shift 63 gimli rejects any raw byte
other than `0x00` or `0x01` (`BadUnsignedLeb128`), so in particular a
tenth-position continuation byte cannot extend the value past 64 bits. -/
def read_uleb128_loop : List Nat → Nat → Nat → Except String (Nat × List Nat)
  | [], _, _ => .error "unexpected end of input"
  | b :: rest, shift, acc =>
    if shift = 63 ∧ b ≠ 0 ∧ b ≠ 1 then .error "bad unsigned leb128"
    else
      let acc := acc + b % 128 * 2 ^ shift
      if b % 256 < 128 then .ok (acc, rest)
      else read_uleb128_loop rest (shift + 7) acc

def read_uleb128 (bytes : List Nat) : Except String (Nat × List Nat) :=
  read_uleb128_loop bytes 0 0

/-! ## `read_wasm_location` (crates/dwarf/src/dwarf/subroutine.rs, lines 127-149)

DWARF attribute values, restricted to the constructors this crate
inspects.  `Exprloc` carries the expression bytes. -/

inductive AttrValue where
  | Addr (n : Nat)
  | Udata (n : Nat)
  | Sdata (n : Int)
  | Data1 (n : Nat)
  | Data2 (n : Nat)
  | Data4 (n : Nat)
  | Data8 (n : Nat)
  | Exprloc (bytes : List Nat)
  | Block (bytes : List Nat)
  | Str (s : String)
  | UnitRef (offset : Nat)
  | OtherAttr
deriving Repr, DecidableEq

inductive WasmLoc where
  | Local (n : Nat)
  | Global (n : Nat)
  | Stack (n : Nat)
deriving Repr, DecidableEq

/-- `DwAtWasm::DW_OP_WASM_location` -/
def DW_OP_WASM_location : Nat := 0xed

/-- `read_wasm_location` from `crates/dwarf/src/dwarf/subroutine.rs`:
the attribute must be an expression block; the first byte must be `0xED`;
the second selects `Local`/`Global`/`Stack` with a ULEB128 operand, or
`Global` with a `u32` little-endian operand. -/
def read_wasm_location (attr_value : AttrValue) : Except String WasmLoc := do
  let bytes_reader ←
    match attr_value with
    | .Exprloc expr => pure expr
    | _ => .error "unexpected attribute kind"
  if bytes_reader.isEmpty then
    .error "byte sequence should not be empty"
  else do
    let (magic, bytes_reader) ← read_u8 bytes_reader
    if magic ≠ DW_OP_WASM_location then
      .error "invalid wasm location magic"
    else do
      let (wasm_op, bytes_reader) ← read_u8 bytes_reader
      if wasm_op = 0x00 then do
        let (v, _) ← read_uleb128 bytes_reader
        .ok (.Local v)
      else if wasm_op = 0x01 then do
        let (v, _) ← read_uleb128 bytes_reader
        .ok (.Global v)
      else if wasm_op = 0x02 then do
        let (v, _) ← read_uleb128 bytes_reader
        .ok (.Stack v)
      else if wasm_op = 0x03 then do
        let (v, _) ← read_u32 bytes_reader
        .ok (.Global v)
      else .error "invalid wasm location operation"

/-- C6: wasm frame-base location decoding succeeds exactly on expression
blocks `0xED, op, operand…` with `op ∈ {0,1,2,3}` and a well-formed operand
(ULEB128 for 0/1/2, four little-endian bytes for 3), mapping `0→Local`,
`1→Global`, `2→Stack`, `3→Global(u32)`; everything else fails. -/
theorem read_wasm_location_characterization :
    (∀ attr : AttrValue,
      (∃ loc, read_wasm_location attr = .ok loc) ↔
        ∃ op rest, attr = .Exprloc (DW_OP_WASM_location :: op :: rest) ∧
          (((op = 0x00 ∨ op = 0x01 ∨ op = 0x02) ∧ ∃ v r, read_uleb128 rest = .ok (v, r)) ∨
           (op = 0x03 ∧ ∃ v r, read_u32 rest = .ok (v, r))))
    ∧ (∀ rest v r, read_uleb128 rest = .ok (v, r) →
        read_wasm_location (.Exprloc (0xed :: 0x00 :: rest)) = .ok (.Local v) ∧
        read_wasm_location (.Exprloc (0xed :: 0x01 :: rest)) = .ok (.Global v) ∧
        read_wasm_location (.Exprloc (0xed :: 0x02 :: rest)) = .ok (.Stack v))
    ∧ (∀ rest v r, read_u32 rest = .ok (v, r) →
        read_wasm_location (.Exprloc (0xed :: 0x03 :: rest)) = .ok (.Global v)) := by
  refine ⟨?_, ?_, ?_⟩
  · intro attr
    constructor
    · rintro ⟨loc, hloc⟩
      match attr with
      | .Exprloc [] => simp [read_wasm_location, bind, Except.bind, pure, Except.pure] at hloc
      | .Exprloc [b] =>
        simp only [read_wasm_location, read_u8, bind, Except.bind, pure, Except.pure,
          List.isEmpty_cons, Bool.false_eq_true, reduceIte, DW_OP_WASM_location] at hloc
        by_cases hb : b = 237 <;> simp [hb] at hloc
      | .Exprloc (b :: op :: rest) =>
        by_cases hb : b = DW_OP_WASM_location
        · subst hb
          refine ⟨op, rest, rfl, ?_⟩
          by_cases h0 : op = 0x00
          · subst h0
            simp only [read_wasm_location, read_u8, bind, Except.bind, pure, Except.pure,
              DW_OP_WASM_location, List.isEmpty, Bool.false_eq_true,
              if_false, reduceIte] at hloc
            match hu : read_uleb128 rest with
            | .ok (v, r) => exact .inl ⟨.inl rfl, v, r, rfl⟩
            | .error e => rw [hu] at hloc; simp at hloc
          · by_cases h1 : op = 0x01
            · subst h1
              simp only [read_wasm_location, read_u8, bind, Except.bind, pure, Except.pure,
                DW_OP_WASM_location, List.isEmpty, Bool.false_eq_true,
                if_false, reduceIte] at hloc
              match hu : read_uleb128 rest with
              | .ok (v, r) => exact .inl ⟨.inr (.inl rfl), v, r, rfl⟩
              | .error e => rw [hu] at hloc; simp at hloc
            · by_cases h2 : op = 0x02
              · subst h2
                simp only [read_wasm_location, read_u8, bind, Except.bind, pure, Except.pure,
                  DW_OP_WASM_location, List.isEmpty, Bool.false_eq_true,
                  if_false, reduceIte] at hloc
                match hu : read_uleb128 rest with
                | .ok (v, r) => exact .inl ⟨.inr (.inr rfl), v, r, rfl⟩
                | .error e => rw [hu] at hloc; simp at hloc
              · by_cases h3 : op = 0x03
                · subst h3
                  simp only [read_wasm_location, read_u8, bind, Except.bind, pure, Except.pure,
                    DW_OP_WASM_location, List.isEmpty, Bool.false_eq_true,
                    if_false, reduceIte] at hloc
                  match hu : read_u32 rest with
                  | .ok (v, r) => exact .inr ⟨rfl, v, r, rfl⟩
                  | .error e => rw [hu] at hloc; simp at hloc
                · simp [read_wasm_location, read_u8, bind, Except.bind, pure, Except.pure,
                    DW_OP_WASM_location, h0, h1, h2, h3] at hloc
        · have hb' : ¬b = 237 := by simpa [DW_OP_WASM_location] using hb
          simp [read_wasm_location, read_u8, bind, Except.bind, pure, Except.pure,
            DW_OP_WASM_location, hb'] at hloc
      | .Addr n => simp [read_wasm_location, bind, Except.bind, pure, Except.pure] at hloc
      | .Udata n => simp [read_wasm_location, bind, Except.bind, pure, Except.pure] at hloc
      | .Sdata n => simp [read_wasm_location, bind, Except.bind, pure, Except.pure] at hloc
      | .Data1 n => simp [read_wasm_location, bind, Except.bind, pure, Except.pure] at hloc
      | .Data2 n => simp [read_wasm_location, bind, Except.bind, pure, Except.pure] at hloc
      | .Data4 n => simp [read_wasm_location, bind, Except.bind, pure, Except.pure] at hloc
      | .Data8 n => simp [read_wasm_location, bind, Except.bind, pure, Except.pure] at hloc
      | .Block bs => simp [read_wasm_location, bind, Except.bind, pure, Except.pure] at hloc
      | .Str s => simp [read_wasm_location, bind, Except.bind, pure, Except.pure] at hloc
      | .UnitRef o => simp [read_wasm_location, bind, Except.bind, pure, Except.pure] at hloc
    · rintro ⟨op, rest, rfl, hops⟩
      rcases hops with ⟨h012, v, r, hu⟩ | ⟨h3, v, r, hu⟩
      · rcases h012 with rfl | rfl | rfl
        · exact ⟨.Local v, by simp [read_wasm_location, read_u8, bind, Except.bind,
            pure, Except.pure, DW_OP_WASM_location, hu]⟩
        · exact ⟨.Global v, by simp [read_wasm_location, read_u8, bind, Except.bind,
            pure, Except.pure, DW_OP_WASM_location, hu]⟩
        · exact ⟨.Stack v, by simp [read_wasm_location, read_u8, bind, Except.bind,
            pure, Except.pure, DW_OP_WASM_location, hu]⟩
      · subst h3
        exact ⟨.Global v, by simp [read_wasm_location, read_u8, bind, Except.bind,
          pure, Except.pure, DW_OP_WASM_location, hu]⟩
  · intro rest v r hu
    refine ⟨?_, ?_, ?_⟩ <;>
      simp [read_wasm_location, read_u8, bind, Except.bind, pure, Except.pure, DW_OP_WASM_location, hu]
  · intro rest v r hu
    simp [read_wasm_location, read_u8, bind, Except.bind, pure, Except.pure, DW_OP_WASM_location, hu]

/-- Witness for C6 at concrete inputs: `[0xED, 0x00, 0x85, 0x01]` decodes to
`Local 133`, `[0xED, 0x03, 0x34, 0x12, 0x00, 0x00]` decodes to
`Global 0x1234`, and a ULEB128 operand whose tenth byte is the
continuation byte `0x80` is rejected as gimli rejects it. -/
theorem read_wasm_location_characterization_witness :
    read_wasm_location (.Exprloc [0xed, 0x00, 0x85, 0x01]) = .ok (.Local 133) ∧
    read_wasm_location (.Exprloc [0xed, 0x03, 0x34, 0x12, 0x00, 0x00]) = .ok (.Global 0x1234) ∧
    read_wasm_location (.Exprloc [0xed, 0x00, 0x80, 0x80, 0x80, 0x80, 0x80,
      0x80, 0x80, 0x80, 0x80, 0x80, 0x00]) = .error "bad unsigned leb128" := by
  refine ⟨?_, ?_, by rfl⟩
  · exact (read_wasm_location_characterization.2.1 [0x85, 0x01] 133 []
      (by rfl)).1
  · exact read_wasm_location_characterization.2.2 [0x34, 0x12, 0x00, 0x00] 0x1234 []
      (by rfl)

/-! ## Value formatter (`crates/dwarf/src/dwarf/format.rs`)

DWARF tag and encoding codes used by `format_object`. -/

def DW_TAG_class_type : Nat := 0x02
def DW_TAG_structure_type : Nat := 0x13
def DW_TAG_union_type : Nat := 0x17
def DW_TAG_base_type : Nat := 0x24
def DW_TAG_variable : Nat := 0x34
def DW_TAG_formal_parameter : Nat := 0x05
def DW_TAG_lexical_block : Nat := 0x0b
def DW_TAG_namespace : Nat := 0x39
def DW_TAG_subprogram : Nat := 0x2e
def DW_TAG_member : Nat := 0x0d
def DW_TAG_pointer_type : Nat := 0x0f
def DW_TAG_reference_type : Nat := 0x10
def DW_TAG_const_type : Nat := 0x26

def DW_ATE_boolean : Nat := 0x02
def DW_ATE_float : Nat := 0x04
def DW_ATE_signed : Nat := 0x05
def DW_ATE_signed_char : Nat := 0x06
def DW_ATE_unsigned : Nat := 0x07
def DW_ATE_unsigned_char : Nat := 0x08

/-- The view of `VariableInfo` that `format_object` reads: type name, size,
base-type encoding, DIE tag and the delivered memory bytes
(`varinfo.memory_slice.memory_slice`). -/
structure VariableInfo where
  name : String
  byte_size : Nat
  encoding : Nat
  tag : Nat
  memory_slice : List Nat
deriving Repr, DecidableEq

/-- Exact value of an IEEE-754 binary float, used to render the semantics of
`f32::from_le_bytes` / `f64::from_le_bytes` (the decimal printing of floats
is not modelled; the decoded value itself is). -/
inductive FloatVal where
  | finite (q : ℚ)
  | posInf
  | negInf
  | nan
deriving Repr, DecidableEq

/-- IEEE-754 decoding of a bit pattern with `expBits` exponent bits and
`fracBits` fraction bits (sign in the top bit). -/
def decodeBinary (expBits fracBits bits : Nat) : FloatVal :=
  let frac := bits % 2 ^ fracBits
  let exp := bits / 2 ^ fracBits % 2 ^ expBits
  let sign := bits / 2 ^ (fracBits + expBits) % 2
  let bias : Int := 2 ^ (expBits - 1) - 1
  if exp = 2 ^ expBits - 1 then
    if frac = 0 then (if sign = 1 then .negInf else .posInf) else .nan
  else
    let mag : ℚ :=
      if exp = 0 then (frac : ℚ) * (2 : ℚ) ^ ((1 : Int) - bias - fracBits)
      else ((2 ^ fracBits + frac : Nat) : ℚ) * (2 : ℚ) ^ ((exp : Int) - bias - fracBits)
    .finite (if sign = 1 then -mag else mag)

def decodeBinary32 (bits : Nat) : FloatVal := decodeBinary 8 23 bits

def decodeBinary64 (bits : Nat) : FloatVal := decodeBinary 11 52 bits

/-- Result of `format_object`: a plain rendered string, or — for the float
cases, whose decimal printing is not modelled — the type-name prefix plus
the exact decoded IEEE-754 value. -/
inductive FormattedObj where
  | text (s : String)
  | floatText (name : String) (v : FloatVal)
deriving Repr, DecidableEq

/-- Failure modes of `format_object`: the two `anyhow` errors of the source,
plus `fatal` for the panic sites (slice out of range for `[0..byte_size]`
and `bytes[0]`, and `unimplemented!` for float sizes other than 4/8). -/
inductive FormatError where
  | unsupportedEncoding (code : Nat)
  | unsupportedType
  | fatal (site : String)
deriving Repr, DecidableEq

/-- `format_object` from `crates/dwarf/src/dwarf/format.rs` lines 6-53. -/
def format_object (varinfo : VariableInfo) : Except FormatError FormattedObj :=
  if varinfo.tag = DW_TAG_base_type then
    if varinfo.memory_slice.length < varinfo.byte_size then
      .error (.fatal "slice index out of range")
    else
      let bytes := varinfo.memory_slice.take varinfo.byte_size
      if varinfo.encoding = DW_ATE_signed ∨ varinfo.encoding = DW_ATE_signed_char then
        .ok (.text ("(" ++ varinfo.name ++ ")" ++ toString (fromSignedBytesLE bytes)))
      else if varinfo.encoding = DW_ATE_unsigned ∨ varinfo.encoding = DW_ATE_unsigned_char then
        .ok (.text ("(" ++ varinfo.name ++ ")" ++ toString (fromBytesLE bytes)))
      else if varinfo.encoding = DW_ATE_boolean then
        match bytes with
        | [] => .error (.fatal "index out of range")
        | b :: _ =>
          .ok (.text ("(" ++ varinfo.name ++ ")" ++ (if b = 0 then "false" else "true")))
      else if varinfo.encoding = DW_ATE_float then
        if varinfo.byte_size = 4 then
          .ok (.floatText varinfo.name (decodeBinary32 (fromBytesLE bytes)))
        else if varinfo.byte_size = 8 then
          .ok (.floatText varinfo.name (decodeBinary64 (fromBytesLE bytes)))
        else .error (.fatal "unimplemented float size")
      else .error (.unsupportedEncoding varinfo.encoding)
  else if varinfo.tag = DW_TAG_class_type ∨ varinfo.tag = DW_TAG_structure_type ∨
      varinfo.tag = DW_TAG_union_type then
    .ok (.text varinfo.name)
  else .error .unsupportedType

/-- C7: the formatter reads only the first `byte_size` bytes, renders
signed/unsigned base types as prefix plus arbitrary-width little-endian
decimal, booleans by the first byte, floats of size 4/8 as the decoded
IEEE-754 little-endian value, rejects every other base-type encoding with
an unsupported-encoding error, renders aggregates by type name, and rejects
every other DIE tag with an unsupported-type error. -/
theorem format_object_spec :
    (∀ (v : VariableInfo) (extra : List Nat), v.byte_size ≤ v.memory_slice.length →
      format_object { v with memory_slice := v.memory_slice ++ extra } = format_object v)
    ∧ (∀ v : VariableInfo, v.tag = DW_TAG_base_type → v.byte_size ≤ v.memory_slice.length →
        ((v.encoding = DW_ATE_signed ∨ v.encoding = DW_ATE_signed_char →
          format_object v = .ok (.text ("(" ++ v.name ++ ")" ++
            toString (fromSignedBytesLE (v.memory_slice.take v.byte_size)))))
        ∧ (v.encoding = DW_ATE_unsigned ∨ v.encoding = DW_ATE_unsigned_char →
          format_object v = .ok (.text ("(" ++ v.name ++ ")" ++
            toString (fromBytesLE (v.memory_slice.take v.byte_size)))))
        ∧ (v.encoding = DW_ATE_boolean → 0 < v.byte_size →
          ∃ b, v.memory_slice.head? = some b ∧
            format_object v = .ok (.text ("(" ++ v.name ++ ")" ++
              (if b = 0 then "false" else "true"))))
        ∧ (v.encoding = DW_ATE_float → v.byte_size = 4 →
          format_object v = .ok (.floatText v.name
            (decodeBinary32 (fromBytesLE (v.memory_slice.take 4)))))
        ∧ (v.encoding = DW_ATE_float → v.byte_size = 8 →
          format_object v = .ok (.floatText v.name
            (decodeBinary64 (fromBytesLE (v.memory_slice.take 8)))))
        ∧ (v.encoding ∉ ([DW_ATE_signed, DW_ATE_signed_char, DW_ATE_unsigned,
            DW_ATE_unsigned_char, DW_ATE_boolean, DW_ATE_float] : List Nat) →
          format_object v = .error (.unsupportedEncoding v.encoding))))
    ∧ (∀ v : VariableInfo, v.tag = DW_TAG_class_type ∨ v.tag = DW_TAG_structure_type ∨
        v.tag = DW_TAG_union_type → format_object v = .ok (.text v.name))
    ∧ (∀ v : VariableInfo, v.tag ∉ ([DW_TAG_base_type, DW_TAG_class_type,
        DW_TAG_structure_type, DW_TAG_union_type] : List Nat) →
        format_object v = .error .unsupportedType) := by
  have tagsne : DW_TAG_base_type ≠ DW_TAG_class_type ∧
      DW_TAG_base_type ≠ DW_TAG_structure_type ∧
      DW_TAG_base_type ≠ DW_TAG_union_type := by decide
  refine ⟨?_, ?_, ?_, ?_⟩
  · intro v extra hle
    unfold format_object
    simp only [List.length_append]
    rw [List.take_append_of_le_length hle]
    have h1 : ¬ (v.memory_slice.length + extra.length < v.byte_size) := by omega
    have h2 : ¬ (v.memory_slice.length < v.byte_size) := by omega
    simp [h1, h2]
  · intro v htag hle
    refine ⟨?_, ?_, ?_, ?_, ?_, ?_⟩
    · intro henc
      simp [format_object, htag, Nat.not_lt.mpr hle, henc]
    · intro henc
      have hne : ¬(v.encoding = DW_ATE_signed ∨ v.encoding = DW_ATE_signed_char) := by
        rcases henc with h | h <;> simp [h, DW_ATE_signed, DW_ATE_signed_char,
          DW_ATE_unsigned, DW_ATE_unsigned_char]
      simp [format_object, htag, Nat.not_lt.mpr hle, hne, henc]
    · intro henc hpos
      have hmem : v.memory_slice ≠ [] := by
        intro h
        rw [h] at hle
        simp at hle
        omega
      match hm : v.memory_slice with
      | [] => exact absurd hm hmem
      | b :: rest =>
        refine ⟨b, rfl, ?_⟩
        have htake : (b :: rest).take v.byte_size = b :: rest.take (v.byte_size - 1) := by
          match hbs : v.byte_size with
          | 0 => omega
          | n + 1 => simp
        have hne1 : ¬(v.encoding = DW_ATE_signed ∨ v.encoding = DW_ATE_signed_char) := by
          simp [henc, DW_ATE_signed, DW_ATE_signed_char, DW_ATE_boolean]
        have hne2 : ¬(v.encoding = DW_ATE_unsigned ∨ v.encoding = DW_ATE_unsigned_char) := by
          simp [henc, DW_ATE_unsigned, DW_ATE_unsigned_char, DW_ATE_boolean]
        have hlt : ¬ (v.memory_slice.length < v.byte_size) := Nat.not_lt.mpr hle
        have hlt2 : ¬ (rest.length + 1 < v.byte_size) := by
          rw [hm] at hlt
          simpa using hlt
        simp [format_object, htag, hlt2, henc, hm, htake, DW_ATE_signed,
          DW_ATE_signed_char, DW_ATE_unsigned, DW_ATE_unsigned_char, DW_ATE_boolean]
    · intro henc hbs
      have hne1 : ¬(v.encoding = DW_ATE_signed ∨ v.encoding = DW_ATE_signed_char) := by
        simp [henc, DW_ATE_signed, DW_ATE_signed_char, DW_ATE_float]
      have hne2 : ¬(v.encoding = DW_ATE_unsigned ∨ v.encoding = DW_ATE_unsigned_char) := by
        simp [henc, DW_ATE_unsigned, DW_ATE_unsigned_char, DW_ATE_float]
      have hne3 : v.encoding ≠ DW_ATE_boolean := by
        simp [henc, DW_ATE_boolean, DW_ATE_float]
      have hlt : ¬ (v.memory_slice.length < 4) := by omega
      simp [format_object, htag, hlt, henc, hbs, DW_ATE_signed, DW_ATE_signed_char,
        DW_ATE_unsigned, DW_ATE_unsigned_char, DW_ATE_boolean, DW_ATE_float]
    · intro henc hbs
      have hne1 : ¬(v.encoding = DW_ATE_signed ∨ v.encoding = DW_ATE_signed_char) := by
        simp [henc, DW_ATE_signed, DW_ATE_signed_char, DW_ATE_float]
      have hne2 : ¬(v.encoding = DW_ATE_unsigned ∨ v.encoding = DW_ATE_unsigned_char) := by
        simp [henc, DW_ATE_unsigned, DW_ATE_unsigned_char, DW_ATE_float]
      have hne3 : v.encoding ≠ DW_ATE_boolean := by
        simp [henc, DW_ATE_boolean, DW_ATE_float]
      have hlt : ¬ (v.memory_slice.length < 8) := by omega
      simp [format_object, htag, hlt, henc, hbs, DW_ATE_signed, DW_ATE_signed_char,
        DW_ATE_unsigned, DW_ATE_unsigned_char, DW_ATE_boolean, DW_ATE_float]
    · intro henc
      simp only [List.mem_cons, List.not_mem_nil, or_false, not_or] at henc
      obtain ⟨h1, h2, h3, h4, h5, h6⟩ := henc
      simp [format_object, htag, Nat.not_lt.mpr hle, h1, h2, h3, h4, h5, h6]
  · intro v htag
    have hne : v.tag ≠ DW_TAG_base_type := by
      rcases htag with h | h | h <;> simp [h] <;> decide
    simp [format_object, hne, htag]
  · intro v htag
    simp only [List.mem_cons, List.not_mem_nil, or_false, not_or] at htag
    obtain ⟨h1, h2, h3, h4⟩ := htag
    simp [format_object, h1, h2, h3, h4]

/-- Witness for C7: a one-byte signed `int` with memory `[0xFF]` formats as
`(int)-1`, via the theorem's signed conjunct. -/
theorem format_object_spec_witness :
    format_object ⟨"int", 1, DW_ATE_signed, DW_TAG_base_type, [0xff]⟩ =
      .ok (.text "(int)-1") := by
  have h := ((format_object_spec.2.1
    ⟨"int", 1, DW_ATE_signed, DW_TAG_base_type, [0xff]⟩ rfl (by decide)).1 (.inl rfl))
  rw [h]
  rfl


/-! ## Path utilities (`crates/dwarf/src/dwarf/utils.rs`) -/

/-- Scan loop of Rust `str::replace`: replace every non-overlapping
occurrence of `pat` left to right.  `fuel` bounds the scan and is always
instantiated with the list length, so it never runs out (each step consumes
at least one character). -/
def replaceAuxF (pat rep : List Char) : Nat → List Char → List Char
  | _, [] => []
  | 0, s => s
  | fuel + 1, c :: rest =>
    if pat ≠ [] ∧ pat.isPrefixOf (c :: rest) then
      rep ++ replaceAuxF pat rep fuel (rest.drop (pat.length - 1))
    else c :: replaceAuxF pat rep fuel rest

/-- Rust `str::replace` (all occurrences; an empty pattern matches at every
character boundary). -/
def strReplace (s pat rep : String) : String :=
  if pat.data = [] then
    ⟨rep.data ++ (s.data.map (fun c => c :: rep.data)).flatten⟩
  else ⟨replaceAuxF pat.data rep.data s.data.length s.data⟩

/-- Rust `str::split('/')` on the character list (empty pieces kept). -/
def splitSlash : List Char → List (List Char)
  | [] => [[]]
  | c :: rest =>
    match splitSlash rest with
    | [] => [[c]]
    | g :: gs => if c = '/' then [] :: g :: gs else (c :: g) :: gs

/-- `convert_from_windows_style_path`: replace every backslash by `/`, then
lower-case a leading `X:/` drive letter (the anchored regex
`^([A-Za-z]):/`). -/
def convert_from_windows_style_path (path : String) : String :=
  let backslash_escaped := strReplace path "\\" "/"
  match backslash_escaped.data with
  | c :: ':' :: '/' :: rest =>
    if c.isAlpha then String.mk (c.toLower :: ':' :: '/' :: rest)
    else backslash_escaped
  | _ => backslash_escaped

/-- `normalize_path`: split on `/`, fold components against a stack (`..`
pops, `.` is dropped, anything else — including empty components — is
pushed), and re-join with `/`. -/
def normalize_path (path : String) : String :=
  let splited := (splitSlash path.data).map String.mk
  let stack := splited.foldl
    (fun (stack : List String) component =>
      if component = ".." then stack.dropLast
      else if component = "." then stack
      else stack ++ [component]) []
  String.intercalate "/" stack

/-! ## Rust slice binary search

`<[T]>::binary_search_by` from the Rust standard library, as called by the
source map (`binary_search_by_key(&addr, |i| i.0)` and
`binary_search_by(|i| i.0.cmp(&name))`): the comparator-driven halving loop
with `mid = left + size / 2`, returning `Ok(mid)` on `Equal` and
`Err(left)` when the window empties.  `Sum.inl` is `Ok`, `Sum.inr` is
`Err`. -/

def bsLoopF (f : Nat → Ordering) : Nat → Nat → Nat → Nat ⊕ Nat
  | 0, left, _ => .inr left
  | fuel + 1, left, right =>
    if left < right then
      match f (left + (right - left) / 2) with
      | .lt => bsLoopF f fuel (left + (right - left) / 2 + 1) right
      | .gt => bsLoopF f fuel left (left + (right - left) / 2)
      | .eq => .inl (left + (right - left) / 2)
    else .inr left

/-- The halving loop.  The window shrinks by at least one element per
iteration, so `right - left` steps always suffice: the fuel never runs out
before the window is empty, and the function equals the unbounded Rust
loop. -/
def bsLoop (f : Nat → Ordering) (left right : Nat) : Nat ⊕ Nat :=
  bsLoopF f (right - left) left right

def rust_binary_search_by {α : Type} (xs : List α) (f : α → Ordering) : Nat ⊕ Nat :=
  bsLoop (fun i => match xs.get? i with | some x => f x | none => .eq) 0 xs.length

/-- `Ord::cmp` on a linearly ordered key type. -/
def rustCmp {β : Type} [LinearOrder β] (a b : β) : Ordering :=
  compareOfLessAndEq a b

def binary_search_by_key {α β : Type} [LinearOrder β]
    (xs : List α) (k : α → β) (t : β) : Nat ⊕ Nat :=
  rust_binary_search_by xs (fun x => rustCmp (k x) t)

theorem rustCmp_lt {β : Type} [LinearOrder β] {a b : β} :
    rustCmp a b = .lt ↔ a < b := by
  unfold rustCmp compareOfLessAndEq
  by_cases h1 : a < b
  · simp [h1]
  · by_cases h2 : a = b <;> simp [h1, h2]

theorem rustCmp_eq {β : Type} [LinearOrder β] {a b : β} :
    rustCmp a b = .eq ↔ a = b := by
  unfold rustCmp compareOfLessAndEq
  by_cases h1 : a < b
  · simp only [h1, if_true]
    simp only [iff_false, reduceCtorEq, false_iff]
    exact ne_of_lt h1
  · by_cases h2 : a = b <;> simp [h1, h2]

theorem rustCmp_gt {β : Type} [LinearOrder β] {a b : β} :
    rustCmp a b = .gt ↔ b < a := by
  unfold rustCmp compareOfLessAndEq
  by_cases h1 : a < b
  · simp only [h1, if_true, reduceCtorEq, false_iff]
    exact lt_asymm h1
  · by_cases h2 : a = b
    · simp [h1, h2]
    · simp only [h1, h2, if_false, true_iff]
      exact lt_of_le_of_ne (not_lt.mp h1) (Ne.symm h2)

theorem bsLoopF_inl {f : Nat → Ordering} :
    ∀ fuel left right i, bsLoopF f fuel left right = .inl i →
      left ≤ i ∧ i < right ∧ f i = .eq := by
  intro fuel
  induction fuel with
  | zero =>
    intro l r i h
    simp [bsLoopF] at h
  | succ n ih =>
    intro l r i h
    rw [bsLoopF] at h
    by_cases hlr : l < r
    · simp only [hlr, if_true] at h
      rcases hcmp : f (l + (r - l) / 2) with _ | _ | _ <;> rw [hcmp] at h
      · have := ih (l + (r - l) / 2 + 1) r i h
        exact ⟨by omega, this.2.1, this.2.2⟩
      · simp only [Sum.inl.injEq] at h
        exact ⟨by omega, by omega, h ▸ hcmp⟩
      · have := ih l (l + (r - l) / 2) i h
        exact ⟨this.1, by omega, this.2.2⟩
    · simp [hlr] at h

theorem bsLoopF_inr {f : Nat → Ordering} (r0 : Nat)
    (hup : ∀ i j, i ≤ j → j < r0 → f i = .gt → f j = .gt)
    (hdown : ∀ i j, i ≤ j → j < r0 → f j = .lt → f i = .lt) :
    ∀ fuel left right i, right - left ≤ fuel → left ≤ right → right ≤ r0 →
      (∀ j, j < left → f j = .lt) → (∀ j, right ≤ j → j < r0 → f j = .gt) →
      bsLoopF f fuel left right = .inr i →
      (∀ j, j < i → f j = .lt) ∧ (∀ j, i ≤ j → j < r0 → f j = .gt) ∧
        left ≤ i ∧ i ≤ right := by
  intro fuel
  induction fuel with
  | zero =>
    intro l r i hfu hlr hr0 hlow hhigh h
    simp only [bsLoopF, Sum.inr.injEq] at h
    subst h
    exact ⟨hlow, fun j hij hjr0 => hhigh j (by omega) hjr0, le_refl _, hlr⟩
  | succ n ih =>
    intro l r i hfu hlr hr0 hlow hhigh h
    rw [bsLoopF] at h
    by_cases hcond : l < r
    · simp only [hcond, if_true] at h
      rcases hcmp : f (l + (r - l) / 2) with _ | _ | _ <;> rw [hcmp] at h
      · have hlow2 : ∀ j, j < l + (r - l) / 2 + 1 → f j = .lt := by
          intro j hj
          by_cases hjl : j < l
          · exact hlow j hjl
          · exact hdown j (l + (r - l) / 2) (by omega) (by omega) hcmp
        have := ih (l + (r - l) / 2 + 1) r i (by omega) (by omega) hr0 hlow2 hhigh h
        exact ⟨this.1, this.2.1, by omega, this.2.2.2⟩
      · exact absurd h (by simp)
      · have hhigh2 : ∀ j, l + (r - l) / 2 ≤ j → j < r0 → f j = .gt := by
          intro j hj hjr0
          by_cases hjr : r ≤ j
          · exact hhigh j hjr hjr0
          · exact hup (l + (r - l) / 2) j hj hjr0 hcmp
        have := ih l (l + (r - l) / 2) i (by omega) (by omega) (by omega) hlow hhigh2 h
        exact ⟨this.1, fun j hij hjr0 => this.2.1 j hij hjr0, this.2.2.1, by omega⟩
    · simp only [hcond, if_false, Sum.inr.injEq] at h
      subst h
      exact ⟨hlow, fun j hij hjr0 => hhigh j (by omega) hjr0, le_refl _, hlr⟩

theorem binary_search_by_key_inl {α β : Type} [LinearOrder β]
    {xs : List α} {k : α → β} {t : β} {i : Nat}
    (h : binary_search_by_key xs k t = .inl i) :
    ∃ hlt : i < xs.length, k (xs.get ⟨i, hlt⟩) = t := by
  have := bsLoopF_inl (f := fun j => match xs.get? j with
    | some x => rustCmp (k x) t
    | none => .eq) (xs.length - 0) 0 xs.length i h
  obtain ⟨-, hilen, heq⟩ := this
  refine ⟨hilen, ?_⟩
  have heq2 : rustCmp (k (xs.get ⟨i, hilen⟩)) t = .eq := by
    simpa [List.getElem?_eq_getElem hilen, List.get_eq_getElem] using heq
  exact rustCmp_eq.mp heq2

theorem binary_search_by_key_inr {α β : Type} [LinearOrder β]
    {xs : List α} {k : α → β} {t : β} {i : Nat}
    (hsort : xs.Pairwise (fun a b => k a < k b))
    (h : binary_search_by_key xs k t = .inr i) :
    i ≤ xs.length ∧
      (∀ j (hj : j < xs.length), j < i → k (xs.get ⟨j, hj⟩) < t) ∧
      (∀ j (hj : j < xs.length), i ≤ j → t < k (xs.get ⟨j, hj⟩)) := by
  have hmono : ∀ a b : Nat, a ≤ b → ∀ (ha : a < xs.length) (hb : b < xs.length),
      k (xs.get ⟨a, ha⟩) ≤ k (xs.get ⟨b, hb⟩) := by
    intro a b hab ha hb
    rcases Nat.lt_or_ge a b with hlt | hge
    · exact le_of_lt ((List.pairwise_iff_get.mp hsort) ⟨a, ha⟩ ⟨b, hb⟩ hlt)
    · have : a = b := by omega
      subst this
      exact le_refl _
  set f : Nat → Ordering := fun j => match xs.get? j with
    | some x => rustCmp (k x) t
    | none => .eq with hf
  have hup : ∀ a b, a ≤ b → b < xs.length → f a = .gt → f b = .gt := by
    intro a b hab hb hfa
    have ha : a < xs.length := by omega
    rw [hf] at hfa ⊢
    simp only [List.get?_eq_get ha] at hfa
    simp only [List.get?_eq_get hb]
    rw [rustCmp_gt] at hfa ⊢
    exact lt_of_lt_of_le hfa (hmono a b hab ha hb)
  have hdown : ∀ a b, a ≤ b → b < xs.length → f b = .lt → f a = .lt := by
    intro a b hab hb hfb
    have ha : a < xs.length := by omega
    rw [hf] at hfb ⊢
    simp only [List.get?_eq_get hb] at hfb
    simp only [List.get?_eq_get ha]
    rw [rustCmp_lt] at hfb ⊢
    exact lt_of_le_of_lt (hmono a b hab ha hb) hfb
  have := bsLoopF_inr (f := f) xs.length hup hdown (xs.length - 0) 0 xs.length i
    (by omega) (by omega) (le_refl _) (by omega) (by omega) h
  obtain ⟨hlt, hgt, -, hir⟩ := this
  refine ⟨hir, ?_, ?_⟩
  · intro j hj hji
    have := hlt j hji
    rw [hf] at this
    simp only [List.get?_eq_get hj] at this
    rwa [rustCmp_lt] at this
  · intro j hj hij
    have := hgt j hij hj
    rw [hf] at this
    simp only [List.get?_eq_get hj] at this
    rwa [rustCmp_gt] at this

/-! ## Source map (`crates/dwarf/src/dwarf/sourcemap.rs`) -/

inductive ColumnType where
  | LeftEdge
  | Column (c : Nat)
deriving Repr, DecidableEq

structure LineInfo where
  file_path : String
  line : Option Nat
  column : ColumnType
deriving Repr, DecidableEq

structure FileAddressMap where
  line_number : Nat
  address : Nat
deriving Repr, DecidableEq

/-- The per-row payload stored in the address-sorted table (`File` in the
source). -/
structure File where
  file_index : Nat
  column : ColumnType
  line_number : Option Nat
deriving Repr, DecidableEq

/-- Per-unit tables before file indices are replaced by path strings
(`UnitSourceMap`). -/
structure UnitSourceMap where
  address_to_file : List (Nat × File)
  file_to_address : List (Nat × List FileAddressMap)
deriving Repr, DecidableEq

/-- Per-unit tables after `transform_file_index` (`DwarfUnitSourceMap`). -/
structure DwarfUnitSourceMap where
  address_to_file : List (Nat × File)
  file_to_address : List (String × List FileAddressMap)
  paths : List String
deriving Repr, DecidableEq

/-- One row yielded by gimli's line-program iterator, with the fields
`transform_debug_line_address` reads: `address()`, `file_index()`,
`line()`, `column()` and the `end_sequence()` flag. -/
structure LineRow where
  address : Nat
  file_index : Nat
  line : Option Nat
  column : ColumnType
  end_sequence : Bool
deriving Repr, DecidableEq

/-- `BTreeMap::insert` on a key-sorted association list: replaces the value
on an equal key, otherwise inserts at the sorted position. -/
def btreeInsert {κ γ : Type} [LinearOrder κ] (k : κ) (v : γ) :
    List (κ × γ) → List (κ × γ)
  | [] => [(k, v)]
  | (k2, v2) :: rest =>
    if k < k2 then (k, v) :: (k2, v2) :: rest
    else if k = k2 then (k, v) :: rest
    else (k2, v2) :: btreeInsert k v rest

/-- `BTreeMap::get` on a key-sorted association list. -/
def btreeLookup {κ γ : Type} [DecidableEq κ] (k : κ) : List (κ × γ) → Option γ
  | [] => none
  | (k2, v) :: rest => if k = k2 then some v else btreeLookup k rest

/-- `BTreeMap::get_mut` followed by an in-place update. -/
def btreeModify {κ γ : Type} [DecidableEq κ] (k : κ) (f : γ → γ) :
    List (κ × γ) → List (κ × γ)
  | [] => []
  | (k2, v) :: rest => if k = k2 then (k2, f v) :: rest else (k2, v) :: btreeModify k f rest

/-- The body of the row loop acting on `file_sorted_rows`: insert an empty
inner map if the file index is new, then insert `(line, address)` into the
inner map (lines 203-215 of sourcemap.rs). -/
def fileRowsStep (m : List (Nat × List (Nat × Nat))) (fi ln addr : Nat) :
    List (Nat × List (Nat × Nat)) :=
  let m := match btreeLookup fi m with
    | none => btreeInsert fi [] m
    | some _ => m
  btreeModify fi (fun inner => btreeInsert ln addr inner) m

/-- `transform_debug_line_address` (sourcemap.rs lines 164-226): fold every
row of the line program into the two `BTreeMap`s, then flatten.  The row
`line` is stored as 0 in the file-sorted view when absent.  Note that the
loop inserts every row — there is no check of `end_sequence`. -/
def transform_debug_line_address (version : Nat) (rows : List LineRow) :
    UnitSourceMap :=
  let init_files : List (Nat × List (Nat × Nat)) :=
    if version ≤ 4 then [(0, [])] else []
  let maps := rows.foldl
    (fun (maps : List (Nat × File) × List (Nat × List (Nat × Nat))) row =>
      let file : File := ⟨row.file_index, row.column, row.line⟩
      (btreeInsert row.address file maps.1,
       fileRowsStep maps.2 row.file_index (row.line.getD 0) row.address))
    ([], init_files)
  ⟨maps.1, maps.2.map (fun p => (p.1, p.2.map (fun q => ⟨q.1, q.2⟩)))⟩

/-- `transform_file_index` (sourcemap.rs lines 230-238).  Path strings are
always valid in the model, so the `to_str` failure branch cannot arise. -/
def transform_file_index (file_index : Nat) (paths : List String) : String :=
  match paths.get? file_index with
  | some x => x
  | none => "??? (index out of range)"

/-- `transform_unit_debug_line` (sourcemap.rs lines 55-72), with the path
list of `transform_debug_line_files` taken as input: the per-unit tables
with file indices replaced by path strings. -/
def transform_unit_debug_line (version : Nat) (rows : List LineRow)
    (paths : List String) : DwarfUnitSourceMap :=
  let source_map := transform_debug_line_address version rows
  ⟨source_map.address_to_file,
   source_map.file_to_address.map (fun p => (transform_file_index p.1 paths, p.2)),
   paths⟩

/-- `DwarfSourceMap`.  `update_unit_debug_info` caches the pure result of
`transform_unit_debug_line` per unit offset; the model exposes that result
directly as a function of the offset.  The `HashMap` of directory remap
rules becomes a list of rules (iteration order fixed by the list). -/
structure DwarfSourceMap where
  file_sorted_unit_offsets : List (String × Nat)
  units_parsed : Nat → DwarfUnitSourceMap
  directory_map : List (String × String)

/-- `BTreeMap::insert` with `String` keys, comparing the character lists
(Rust compares the UTF-8 bytes; for valid UTF-8 that order coincides with
the code-point order of the character lists). -/
def btreeInsertStr (k : String) (v : Nat) : List (String × Nat) → List (String × Nat)
  | [] => [(k, v)]
  | (k2, v2) :: rest =>
    if k.data < k2.data then (k, v) :: (k2, v2) :: rest
    else if k = k2 then (k, v) :: rest
    else (k2, v2) :: btreeInsertStr k v rest

/-- `HashMap::insert`: replace the value of an existing key, otherwise add
the rule. -/
def hashMapInsert (m : List (String × String)) (k v : String) :
    List (String × String) :=
  if m.any (fun p => p.1 = k) then
    m.map (fun p => if p.1 = k then (p.1, v) else p)
  else m ++ [(k, v)]

/-- `DwarfSourceMap::set_directory_map` (sourcemap.rs lines 270-272). -/
def set_directory_map (sm : DwarfSourceMap) (key value : String) : DwarfSourceMap :=
  { sm with directory_map := hashMapInsert sm.directory_map key value }

/-- The remap loop of `find_line_info` (lines 312-314): apply
`String::replace` for every registered rule. -/
def applyDirectoryMap (dm : List (String × String)) (path : String) : String :=
  dm.foldl (fun p rule => strReplace p rule.1 rule.2) path

/-- `DwarfSourceMap::find_line_info` (sourcemap.rs lines 289-317): binary
search of the unit's address-sorted table for the greatest entry at or
below `address`; build the `LineInfo` from the stored paths; apply the
directory remap to the path.  The source indexes
`unit.paths[file_info.file_index]` directly, which panics when the row's
file index falls outside the unit's path table; per the convention above
that panic is an error here.  `directory_map` is the remap `HashMap`'s
entry list in its iteration order — Rust leaves that order unspecified, so
the embedding carries it as part of the state and the theorems quantify
over every order. -/
def find_line_info (sm : DwarfSourceMap) (unit_offset : Nat) (address : Nat) :
    Except String (Option LineInfo) :=
  let unit := sm.units_parsed unit_offset
  let dummy : Nat × File := (0, ⟨0, .LeftEdge, none⟩)
  let fopt : Option File :=
    match binary_search_by_key unit.address_to_file (fun e => e.1) address with
    | .inl i => some (unit.address_to_file.getD i dummy).2
    | .inr i =>
      if 0 < i then some (unit.address_to_file.getD (i - 1) dummy).2
      else none
  match fopt with
  | none => .ok none
  | some file_info =>
    if file_info.file_index < unit.paths.length then
      .ok (some { file_path := applyDirectoryMap sm.directory_map
                    (unit.paths.getD file_info.file_index ""),
                  line := file_info.line_number,
                  column := file_info.column })
    else .error "index out of bounds"

/-- `DwarfSourceMap::find_address` (sourcemap.rs lines 319-354): canonicalize
the queried path, locate the unit by binary search of the file-to-unit
index, binary search the unit's file-sorted list for the file, then for the
requested line (`unwrap_or_default()`, i.e. 0 when absent): exact hit or
the entry just below, none when none exists. -/
def find_address (sm : DwarfSourceMap) (file : LineInfo) : Option Nat :=
  let escaped_filename := convert_from_windows_style_path file.file_path
  let escaped_filename := normalize_path escaped_filename
  match binary_search_by_key sm.file_sorted_unit_offsets (fun e => e.1.data)
      escaped_filename.data with
  | .inr _ => none
  | .inl i =>
    let unit_offset := (sm.file_sorted_unit_offsets.getD i ("", 0)).2
    let unit := sm.units_parsed unit_offset
    match binary_search_by_key unit.file_to_address (fun e => e.1.data)
        escaped_filename.data with
    | .inr _ => none
    | .inl j =>
      let line_vec := (unit.file_to_address.getD j ("", [])).2
      match binary_search_by_key line_vec (fun e => e.line_number) (file.line.getD 0) with
      | .inl idx => some (line_vec.getD idx ⟨0, 0⟩).address
      | .inr idx =>
        if 0 < idx then some (line_vec.getD (idx - 1) ⟨0, 0⟩).address
        else none

theorem listGetD_eq_get {α : Type} (l : List α) (d : α) (i : Nat) (h : i < l.length) :
    l.getD i d = l.get ⟨i, h⟩ := by
  simp [List.getD_eq_getElem?_getD, List.getElem?_eq_getElem h, List.get_eq_getElem]

/-- The line-program rows of the concrete scenario of §8a of the spec:
addresses 100, 104, 108 for lines 3, 4, 5 of `/src/app.c`. -/
def exampleRows : List LineRow :=
  [⟨100, 0, some 3, .LeftEdge, false⟩,
   ⟨104, 0, some 4, .LeftEdge, false⟩,
   ⟨108, 0, some 5, .LeftEdge, false⟩]

/-- Source map holding the single compilation unit of the scenario. -/
def exampleSourceMap : DwarfSourceMap :=
  ⟨[("/src/app.c", 0)],
   fun _ => transform_unit_debug_line 5 exampleRows ["/src/app.c"],
   []⟩

/-- Characterization of `find_line_info` under the address-sorted table
invariant: `.ok none` exactly when the offset precedes every recorded
address; a successful `LineInfo` describes the greatest recorded entry at
or below the offset, whose file index then lies inside the unit's path
table; an error (the modelled `unit.paths[...]` panic) happens only when
that entry's file index is out of range. -/
theorem find_line_info_characterization :
    ∀ (sm : DwarfSourceMap) (uo addr : Nat),
      (sm.units_parsed uo).address_to_file.Pairwise (fun a b => a.1 < b.1) →
      ((find_line_info sm uo addr = .ok none ↔
          ∀ e ∈ (sm.units_parsed uo).address_to_file, addr < e.1)
       ∧ (∀ li, find_line_info sm uo addr = .ok (some li) →
           ∃ e ∈ (sm.units_parsed uo).address_to_file,
             e.1 ≤ addr ∧
             (∀ e2 ∈ (sm.units_parsed uo).address_to_file, e2.1 ≤ addr → e2.1 ≤ e.1) ∧
             e.2.file_index < (sm.units_parsed uo).paths.length ∧
             li.file_path = applyDirectoryMap sm.directory_map
               ((sm.units_parsed uo).paths.getD e.2.file_index "") ∧
             li.line = e.2.line_number ∧ li.column = e.2.column)
       ∧ (∀ err, find_line_info sm uo addr = .error err →
           ∃ e ∈ (sm.units_parsed uo).address_to_file,
             e.1 ≤ addr ∧
             (∀ e2 ∈ (sm.units_parsed uo).address_to_file, e2.1 ≤ addr → e2.1 ≤ e.1) ∧
             (sm.units_parsed uo).paths.length ≤ e.2.file_index)) := by
  intro sm uo addr hsort
  rcases hsearch : binary_search_by_key
      (sm.units_parsed uo).address_to_file (fun e => e.1) addr with i | i
  · -- exact hit
    obtain ⟨hi, hkey⟩ := binary_search_by_key_inl hsearch
    have hgreat : ∀ e2 ∈ (sm.units_parsed uo).address_to_file, e2.1 ≤ addr →
        e2.1 ≤ ((sm.units_parsed uo).address_to_file.get ⟨i, hi⟩).1 := by
      intro e2 he2 hle
      rw [hkey]
      exact hle
    by_cases hb : ((sm.units_parsed uo).address_to_file.get ⟨i, hi⟩).2.file_index <
        (sm.units_parsed uo).paths.length
    · have hres : find_line_info sm uo addr =
          .ok (some { file_path := applyDirectoryMap sm.directory_map
                        ((sm.units_parsed uo).paths.getD
                          (((sm.units_parsed uo).address_to_file.get ⟨i, hi⟩).2.file_index) ""),
                      line := ((sm.units_parsed uo).address_to_file.get ⟨i, hi⟩).2.line_number,
                      column := ((sm.units_parsed uo).address_to_file.get ⟨i, hi⟩).2.column }) := by
        simp only [find_line_info, hsearch, listGetD_eq_get _ _ _ hi, hb, if_true]
      refine ⟨?_, ?_, ?_⟩
      · rw [hres]
        simp only [Except.ok.injEq, reduceCtorEq, false_iff, not_forall]
        push_neg
        exact ⟨_, List.get_mem _ i hi, by rw [hkey]⟩
      · intro li hli
        rw [hres] at hli
        obtain rfl := Option.some.inj (Except.ok.inj hli)
        exact ⟨_, List.get_mem _ i hi, le_of_eq hkey, hgreat, hb, rfl, rfl, rfl⟩
      · intro err herr
        rw [hres] at herr
        exact Except.noConfusion herr
    · have hres : find_line_info sm uo addr = .error "index out of bounds" := by
        simp only [find_line_info, hsearch, listGetD_eq_get _ _ _ hi, hb, if_false]
      refine ⟨?_, ?_, ?_⟩
      · rw [hres]
        simp only [reduceCtorEq, false_iff, not_forall]
        push_neg
        exact ⟨_, List.get_mem _ i hi, by rw [hkey]⟩
      · intro li hli
        rw [hres] at hli
        exact Except.noConfusion hli
      · intro err herr
        refine ⟨_, List.get_mem _ i hi, le_of_eq hkey, hgreat, ?_⟩
        omega
  · obtain ⟨hile, hbelow, habove⟩ := binary_search_by_key_inr hsort hsearch
    by_cases hpos : 0 < i
    · have hi1 : i - 1 < (sm.units_parsed uo).address_to_file.length := by omega
      have hkey1 : ((sm.units_parsed uo).address_to_file.get ⟨i - 1, hi1⟩).1 ≤ addr :=
        le_of_lt (hbelow (i - 1) hi1 (by omega))
      have hgreat : ∀ e2 ∈ (sm.units_parsed uo).address_to_file, e2.1 ≤ addr →
          e2.1 ≤ ((sm.units_parsed uo).address_to_file.get ⟨i - 1, hi1⟩).1 := by
        intro e2 he2 hle
        obtain ⟨⟨j, hj⟩, hget⟩ := List.mem_iff_get.mp he2
        subst hget
        by_cases hji : j < i
        · rcases Nat.lt_or_ge j (i - 1) with hj2 | hj2
          · exact le_of_lt ((List.pairwise_iff_get.mp hsort) ⟨j, hj⟩ ⟨i - 1, hi1⟩
              (by simp only [Fin.mk_lt_mk]; omega))
          · have : j = i - 1 := by omega
            subst this
            exact le_refl _
        · exact absurd hle (not_le.mpr (habove j hj (by omega)))
      by_cases hb : ((sm.units_parsed uo).address_to_file.get ⟨i - 1, hi1⟩).2.file_index <
          (sm.units_parsed uo).paths.length
      · have hres : find_line_info sm uo addr =
            .ok (some { file_path := applyDirectoryMap sm.directory_map
                          ((sm.units_parsed uo).paths.getD
                            (((sm.units_parsed uo).address_to_file.get ⟨i - 1, hi1⟩).2.file_index) ""),
                        line := ((sm.units_parsed uo).address_to_file.get ⟨i - 1, hi1⟩).2.line_number,
                        column := ((sm.units_parsed uo).address_to_file.get ⟨i - 1, hi1⟩).2.column }) := by
          simp only [find_line_info, hsearch, hpos, if_true,
            listGetD_eq_get _ _ _ hi1, hb]
        refine ⟨?_, ?_, ?_⟩
        · rw [hres]
          simp only [Except.ok.injEq, reduceCtorEq, false_iff, not_forall]
          push_neg
          exact ⟨_, List.get_mem _ (i - 1) hi1, by omega⟩
        · intro li hli
          rw [hres] at hli
          obtain rfl := Option.some.inj (Except.ok.inj hli)
          exact ⟨_, List.get_mem _ (i - 1) hi1, hkey1, hgreat, hb, rfl, rfl, rfl⟩
        · intro err herr
          rw [hres] at herr
          exact Except.noConfusion herr
      · have hres : find_line_info sm uo addr = .error "index out of bounds" := by
          simp only [find_line_info, hsearch, hpos, if_true,
            listGetD_eq_get _ _ _ hi1, hb, if_false]
        refine ⟨?_, ?_, ?_⟩
        · rw [hres]
          simp only [reduceCtorEq, false_iff, not_forall]
          push_neg
          exact ⟨_, List.get_mem _ (i - 1) hi1, by omega⟩
        · intro li hli
          rw [hres] at hli
          exact Except.noConfusion hli
        · intro err herr
          refine ⟨_, List.get_mem _ (i - 1) hi1, hkey1, hgreat, ?_⟩
          omega
    · have hres : find_line_info sm uo addr = .ok none := by
        simp only [find_line_info, hsearch]
        simp [hpos]
      refine ⟨?_, ?_, ?_⟩
      · rw [hres]
        simp only [true_iff]
        intro e he
        obtain ⟨⟨j, hj⟩, hget⟩ := List.mem_iff_get.mp he
        subst hget
        exact habove j hj (by omega)
      · intro li hli
        rw [hres] at hli
        simp at hli
      · intro err herr
        rw [hres] at herr
        exact Except.noConfusion herr

/-- C8: `set_directory_map` only adds/replaces a rule in `directory_map`;
the stored file keys and unit tables are untouched, and `find_address`
(which never reads `directory_map`) returns the same address after any
sequence of `set_directory_map` calls. -/
theorem set_directory_map_purity :
    (∀ (sm : DwarfSourceMap) (key value : String),
      (set_directory_map sm key value).file_sorted_unit_offsets =
        sm.file_sorted_unit_offsets ∧
      (set_directory_map sm key value).units_parsed = sm.units_parsed ∧
      (set_directory_map sm key value).directory_map =
        hashMapInsert sm.directory_map key value)
    ∧ (∀ (sm : DwarfSourceMap) (calls : List (String × String)) (file : LineInfo),
        find_address (calls.foldl (fun s c => set_directory_map s c.1 c.2) sm) file =
          find_address sm file) := by
  constructor
  · intro sm key value
    exact ⟨rfl, rfl, rfl⟩
  · intro sm calls
    induction calls generalizing sm with
    | nil => intro file; rfl
    | cons c cs ih =>
      intro file
      rw [List.foldl_cons]
      rw [ih (set_directory_map sm c.1 c.2) file]
      obtain ⟨offs, units, dm⟩ := sm
      rfl

/-- C9 evidence: `transform_debug_line_address` has no `end_sequence` check —
a line program consisting of one end-of-sequence row at address 10
(file 0, line 7, DWARF v5) still contributes an entry to both the
address-sorted and the file-sorted tables, contrary to the specified
"end-of-sequence rows are skipped". -/
theorem transform_debug_line_address_records_end_sequence :
    (transform_debug_line_address 5 [⟨10, 0, some 7, .LeftEdge, true⟩]).address_to_file =
      [(10, ⟨0, .LeftEdge, some 7⟩)] ∧
    (transform_debug_line_address 5 [⟨10, 0, some 7, .LeftEdge, true⟩]).file_to_address =
      [(0, [⟨7, 10⟩])] := by
  decide

/-- In a list strictly sorted by key, equal keys mean equal indices. -/
theorem strictSorted_key_inj {α β : Type} [LinearOrder β] {xs : List α} {k : α → β}
    (hsort : xs.Pairwise (fun a b => k a < k b)) (i j : Nat)
    (hi : i < xs.length) (hj : j < xs.length)
    (heq : k (xs.get ⟨i, hi⟩) = k (xs.get ⟨j, hj⟩)) : i = j := by
  rcases Nat.lt_trichotomy i j with h | h | h
  · have := (List.pairwise_iff_get.mp hsort) ⟨i, hi⟩ ⟨j, hj⟩
      (by simp only [Fin.mk_lt_mk]; exact h)
    exact absurd heq (ne_of_lt this)
  · exact h
  · have := (List.pairwise_iff_get.mp hsort) ⟨j, hj⟩ ⟨i, hi⟩
      (by simp only [Fin.mk_lt_mk]; exact h)
    exact absurd heq.symm (ne_of_lt this)

/-- If the target key occurs in a strictly sorted list, the Rust binary
search returns `Ok` at exactly that element. -/
theorem binary_search_found {α β : Type} [LinearOrder β] {xs : List α} {k : α → β}
    {t : β} {x : α} (hsort : xs.Pairwise (fun a b => k a < k b))
    (hmem : x ∈ xs) (hkey : k x = t) (d : α) :
    ∃ i, binary_search_by_key xs k t = .inl i ∧ xs.getD i d = x := by
  obtain ⟨⟨j, hj⟩, hget⟩ := List.mem_iff_get.mp hmem
  rcases hsearch : binary_search_by_key xs k t with i | i
  · obtain ⟨hi, hkeyi⟩ := binary_search_by_key_inl hsearch
    have hij : i = j := strictSorted_key_inj hsort i j hi hj (by rw [hkeyi, hget, hkey])
    subst hij
    exact ⟨i, rfl, by rw [listGetD_eq_get _ _ _ hi, ← hget]⟩
  · obtain ⟨-, hbelow, habove⟩ := binary_search_by_key_inr hsort hsearch
    by_cases hji : j < i
    · have := hbelow j hj hji
      rw [hget, hkey] at this
      exact absurd this (lt_irrefl t)
    · have := habove j hj (by omega)
      rw [hget, hkey] at this
      exact absurd this (lt_irrefl t)

/-- The canonicalization `find_address` applies to its query. -/
def escapedName (p : String) : String :=
  normalize_path (convert_from_windows_style_path p)

theorem stringDataEq {a b : String} (h : a.data = b.data) : a = b := by
  cases a
  cases b
  congr 1

/-- Under strict sortedness there is at most one greatest recorded entry
at or below a given offset. -/
theorem greatest_unique {l : List (Nat × File)}
    (hs : l.Pairwise (fun a b => a.1 < b.1)) {addr : Nat} {e e2 : Nat × File}
    (he : e ∈ l) (he2 : e2 ∈ l) (h1 : e.1 ≤ addr)
    (h2 : ∀ x ∈ l, x.1 ≤ addr → x.1 ≤ e.1) (h3 : e2.1 ≤ addr)
    (h4 : ∀ x ∈ l, x.1 ≤ addr → x.1 ≤ e2.1) : e = e2 := by
  have hk : e.1 = e2.1 := le_antisymm (h4 e he h1) (h2 e2 he2 h3)
  obtain ⟨⟨i1, hi1⟩, hg1⟩ := List.mem_iff_get.mp he
  obtain ⟨⟨i2, hi2⟩, hg2⟩ := List.mem_iff_get.mp he2
  have hij : i1 = i2 := strictSorted_key_inj hs i1 i2 hi1 hi2 (by rw [hg1, hg2, hk])
  subst hij
  rw [← hg1, ← hg2]

/-- C1 (amended): under the address-sorted table invariant, `find_line_info`
returns no line information exactly when the offset precedes every recorded
address; a returned `LineInfo` is built from the greatest recorded entry at
or below the offset with the directory remap applied to the looked-up path,
and conversely, whenever that greatest entry's file index lies inside the
unit's path table the lookup succeeds with exactly that `LineInfo`; when it
does not, the source's `unit.paths[file_info.file_index]` indexing panics
(an error in the model) instead of returning a result.  Concretely, rows at
100/104/108 for lines 3/4/5 of `/src/app.c` give line 4 at offset 106. -/
theorem find_line_info_spec :
    (∀ (sm : DwarfSourceMap) (uo addr : Nat),
      (sm.units_parsed uo).address_to_file.Pairwise (fun a b => a.1 < b.1) →
      ((find_line_info sm uo addr = .ok none ↔
          ∀ e ∈ (sm.units_parsed uo).address_to_file, addr < e.1)
       ∧ (∀ li, find_line_info sm uo addr = .ok (some li) →
           ∃ e ∈ (sm.units_parsed uo).address_to_file,
             e.1 ≤ addr ∧
             (∀ e2 ∈ (sm.units_parsed uo).address_to_file, e2.1 ≤ addr → e2.1 ≤ e.1) ∧
             e.2.file_index < (sm.units_parsed uo).paths.length ∧
             li.file_path = applyDirectoryMap sm.directory_map
               ((sm.units_parsed uo).paths.getD e.2.file_index "") ∧
             li.line = e.2.line_number ∧ li.column = e.2.column)
       ∧ (∀ e ∈ (sm.units_parsed uo).address_to_file,
           e.1 ≤ addr →
           (∀ e2 ∈ (sm.units_parsed uo).address_to_file, e2.1 ≤ addr → e2.1 ≤ e.1) →
           e.2.file_index < (sm.units_parsed uo).paths.length →
           find_line_info sm uo addr =
             .ok (some { file_path := applyDirectoryMap sm.directory_map
                           ((sm.units_parsed uo).paths.getD e.2.file_index ""),
                         line := e.2.line_number,
                         column := e.2.column }))
       ∧ (∀ err, find_line_info sm uo addr = .error err →
           ∃ e ∈ (sm.units_parsed uo).address_to_file,
             e.1 ≤ addr ∧
             (∀ e2 ∈ (sm.units_parsed uo).address_to_file, e2.1 ≤ addr → e2.1 ≤ e.1) ∧
             (sm.units_parsed uo).paths.length ≤ e.2.file_index)))
    ∧ find_line_info exampleSourceMap 0 106 =
        .ok (some ⟨"/src/app.c", some 4, .LeftEdge⟩) := by
  constructor
  · intro sm uo addr hsort
    have hchar := find_line_info_characterization sm uo addr hsort
    refine ⟨hchar.1, hchar.2.1, ?_, hchar.2.2⟩
    intro e hmem hle hmax hinr
    rcases hr : find_line_info sm uo addr with err | o
    · obtain ⟨e2, he2mem, he2le, he2max, he2oob⟩ := hchar.2.2 err hr
      have heq := greatest_unique hsort hmem he2mem hle hmax he2le he2max
      rw [heq] at hinr
      omega
    · cases o with
      | none =>
        have := hchar.1.mp hr e hmem
        omega
      | some li =>
        obtain ⟨e2, he2mem, he2le, he2max, he2inr, hfile, hlineEq, hcol⟩ :=
          hchar.2.1 li hr
        have heq := greatest_unique hsort hmem he2mem hle hmax he2le he2max
        rw [← heq] at hfile hlineEq hcol
        have hli : li = { file_path := applyDirectoryMap sm.directory_map
                            ((sm.units_parsed uo).paths.getD e.2.file_index ""),
                          line := e.2.line_number,
                          column := e.2.column } := by
          rcases li with ⟨fp, ln, col⟩
          simp only [LineInfo.mk.injEq]
          exact ⟨hfile, hlineEq, hcol⟩
        rw [hli]
  · rfl

/-- Witness for C1: instantiating the theorem at the scenario source map and
offset 106 discharges its sortedness hypothesis and produces the greatest
entry at or below 106, with an in-range file index. -/
theorem find_line_info_spec_witness :
    ∃ e ∈ (exampleSourceMap.units_parsed 0).address_to_file,
      e.1 ≤ 106 ∧
      (∀ e2 ∈ (exampleSourceMap.units_parsed 0).address_to_file,
        e2.1 ≤ 106 → e2.1 ≤ e.1) ∧
      e.2.file_index < (exampleSourceMap.units_parsed 0).paths.length ∧
      (LineInfo.mk "/src/app.c" (some 4) .LeftEdge).file_path =
        applyDirectoryMap exampleSourceMap.directory_map
          ((exampleSourceMap.units_parsed 0).paths.getD e.2.file_index "") ∧
      (LineInfo.mk "/src/app.c" (some 4) .LeftEdge).line = e.2.line_number ∧
      (LineInfo.mk "/src/app.c" (some 4) .LeftEdge).column = e.2.column :=
  (find_line_info_spec.1 exampleSourceMap 0 106 (by decide)).2.1
    ⟨"/src/app.c", some 4, .LeftEdge⟩ (by rfl)

/-- Characterization of `find_address` under the sortedness invariants of
the `BTreeMap`-built tables; the C2 theorem below and the round-trip proof
both instantiate it. -/
theorem find_address_characterization :
    ∀ (sm : DwarfSourceMap) (fi : LineInfo),
      sm.file_sorted_unit_offsets.Pairwise (fun a b => a.1.data < b.1.data) →
      (∀ off, (sm.units_parsed off).file_to_address.Pairwise
        (fun a b => a.1.data < b.1.data)) →
      (∀ off, ∀ p ∈ (sm.units_parsed off).file_to_address,
        p.2.Pairwise (fun a b => a.line_number < b.line_number)) →
      (((∀ e ∈ sm.file_sorted_unit_offsets, e.1 ≠ escapedName fi.file_path) →
          find_address sm fi = none)
       ∧ ∀ u_off, (escapedName fi.file_path, u_off) ∈ sm.file_sorted_unit_offsets →
           (((∀ p ∈ (sm.units_parsed u_off).file_to_address,
               p.1 ≠ escapedName fi.file_path) → find_address sm fi = none)
            ∧ ∀ lines, (escapedName fi.file_path, lines) ∈
                (sm.units_parsed u_off).file_to_address →
                ((∀ fam ∈ lines, fam.line_number ≤ fi.line.getD 0 →
                    (∀ o ∈ lines, o.line_number ≤ fi.line.getD 0 →
                      o.line_number ≤ fam.line_number) →
                    find_address sm fi = some fam.address)
                 ∧ ((∀ fam ∈ lines, fi.line.getD 0 < fam.line_number) →
                     find_address sm fi = none)))) := by
  intro sm fi hsortIdx hsortFiles hsortLines
  set esc := escapedName fi.file_path with hesc
  have hescdef : normalize_path (convert_from_windows_style_path fi.file_path) = esc := rfl
  constructor
  · intro hnone
    rcases hsearch : binary_search_by_key sm.file_sorted_unit_offsets
      (fun e => e.1.data) esc.data with i | i
    · obtain ⟨hi, hkey⟩ := binary_search_by_key_inl hsearch
      exact absurd (stringDataEq hkey) (hnone _ (List.get_mem _ i hi))
    · simp only [find_address, hescdef, hsearch]
  · intro u_off hmemIdx
    obtain ⟨i, hsearch1, hgetD1⟩ := @binary_search_found (String × Nat) (List Char) _
      sm.file_sorted_unit_offsets (fun e => e.1.data) esc.data (esc, u_off)
      hsortIdx hmemIdx rfl ("", 0)
    have hunit : (sm.file_sorted_unit_offsets.getD i ("", 0)).2 = u_off := by
      rw [hgetD1]
    constructor
    · intro hnone
      rcases hsearch2 : binary_search_by_key
          (sm.units_parsed u_off).file_to_address (fun e => e.1.data) esc.data with j | j
      · obtain ⟨hj, hkey⟩ := binary_search_by_key_inl hsearch2
        exact absurd (stringDataEq hkey) (hnone _ (List.get_mem _ j hj))
      · simp only [find_address, hescdef, hsearch1, hunit, hsearch2]
    · intro lines hmemFile
      obtain ⟨j, hsearch2, hgetD2⟩ := @binary_search_found
        (String × List FileAddressMap) (List Char) _
        (sm.units_parsed u_off).file_to_address (fun e => e.1.data) esc.data (esc, lines)
        (hsortFiles u_off) hmemFile rfl ("", [])
      have hlines : ((sm.units_parsed u_off).file_to_address.getD j ("", [])).2 = lines := by
        rw [hgetD2]
      have hsortL : lines.Pairwise (fun a b => a.line_number < b.line_number) :=
        hsortLines u_off _ hmemFile
      constructor
      · intro fam hfam hle hgreatest
        rcases hsearch3 : binary_search_by_key lines
            (fun e => e.line_number) (fi.line.getD 0) with idx | idx
        · obtain ⟨hidx, hkey3⟩ := binary_search_by_key_inl hsearch3
          have hfameq : fam = lines.get ⟨idx, hidx⟩ := by
            obtain ⟨⟨jf, hjf⟩, hgetf⟩ := List.mem_iff_get.mp hfam
            have h1 : (lines.get ⟨idx, hidx⟩).line_number ≤ fam.line_number := by
              apply hgreatest
              · exact List.get_mem _ idx hidx
              · rw [hkey3]
            have h2 : fam.line_number = (lines.get ⟨idx, hidx⟩).line_number := by
              rw [hkey3]
              omega
            have := strictSorted_key_inj hsortL jf idx hjf hidx (by rw [hgetf, h2])
            subst this
            rw [← hgetf]
          simp only [find_address, hescdef, hsearch1, hunit, hsearch2, hlines, hsearch3]
          rw [listGetD_eq_get _ _ _ hidx, ← hfameq]
        · obtain ⟨hile, hbelow, habove⟩ := binary_search_by_key_inr hsortL hsearch3
          obtain ⟨⟨jf, hjf⟩, hgetf⟩ := List.mem_iff_get.mp hfam
          have hjfidx : jf < idx := by
            by_contra hcon
            have := habove jf hjf (by omega)
            rw [hgetf] at this
            omega
          have hpos : 0 < idx := by omega
          have hidx1 : idx - 1 < lines.length := by omega
          have hfameq : fam = lines.get ⟨idx - 1, hidx1⟩ := by
            have hmem1 : (lines.get ⟨idx - 1, hidx1⟩) ∈ lines := List.get_mem _ _ _
            have hlt1 : (lines.get ⟨idx - 1, hidx1⟩).line_number ≤ fi.line.getD 0 :=
              le_of_lt (hbelow (idx - 1) hidx1 (by omega))
            have h1 : (lines.get ⟨idx - 1, hidx1⟩).line_number ≤ fam.line_number :=
              hgreatest _ hmem1 hlt1
            have h2 : fam.line_number ≤ (lines.get ⟨idx - 1, hidx1⟩).line_number := by
              rcases Nat.lt_or_ge jf (idx - 1) with hl | hl
              · have := (List.pairwise_iff_get.mp hsortL) ⟨jf, hjf⟩ ⟨idx - 1, hidx1⟩
                  (by simp only [Fin.mk_lt_mk]; omega)
                rw [hgetf] at this
                exact le_of_lt this
              · have : jf = idx - 1 := by omega
                subst this
                rw [hgetf]
            have := strictSorted_key_inj hsortL jf (idx - 1) hjf hidx1
              (by rw [hgetf]; omega)
            subst this
            rw [← hgetf]
          simp only [find_address, hescdef, hsearch1, hunit, hsearch2, hlines, hsearch3,
            hpos, if_true]
          rw [listGetD_eq_get _ _ _ hidx1, ← hfameq]
      · intro hall
        rcases hsearch3 : binary_search_by_key lines
            (fun e => e.line_number) (fi.line.getD 0) with idx | idx
        · obtain ⟨hidx, hkey3⟩ := binary_search_by_key_inl hsearch3
          have := hall _ (List.get_mem _ idx hidx)
          omega
        · obtain ⟨hile, hbelow, habove⟩ := binary_search_by_key_inr hsortL hsearch3
          have hzero : idx = 0 := by
            by_contra hcon
            have h1 : idx - 1 < lines.length := by omega
            have := hbelow (idx - 1) h1 (by omega)
            have := hall _ (List.get_mem _ (idx - 1) h1)
            omega
          subst hzero
          simp only [find_address, hescdef, hsearch1, hunit, hsearch2, hlines, hsearch3]
          simp

/-- C2: `find_address` canonicalizes the queried path, resolves the owning
unit through the file-to-unit index, and searches that unit's file-sorted
line list: it returns the address of the greatest recorded line at or below
the requested line (an exact hit being that greatest line), and `none` when
the file is unknown — to the index or to the unit — or when every recorded
line exceeds the request. -/
theorem find_address_spec :
    ∀ (sm : DwarfSourceMap) (fi : LineInfo),
      sm.file_sorted_unit_offsets.Pairwise (fun a b => a.1.data < b.1.data) →
      (∀ off, (sm.units_parsed off).file_to_address.Pairwise
        (fun a b => a.1.data < b.1.data)) →
      (∀ off, ∀ p ∈ (sm.units_parsed off).file_to_address,
        p.2.Pairwise (fun a b => a.line_number < b.line_number)) →
      (((∀ e ∈ sm.file_sorted_unit_offsets, e.1 ≠ escapedName fi.file_path) →
          find_address sm fi = none)
       ∧ ∀ u_off, (escapedName fi.file_path, u_off) ∈ sm.file_sorted_unit_offsets →
           (((∀ p ∈ (sm.units_parsed u_off).file_to_address,
               p.1 ≠ escapedName fi.file_path) → find_address sm fi = none)
            ∧ ∀ lines, (escapedName fi.file_path, lines) ∈
                (sm.units_parsed u_off).file_to_address →
                ((∀ fam ∈ lines, fam.line_number ≤ fi.line.getD 0 →
                    (∀ o ∈ lines, o.line_number ≤ fi.line.getD 0 →
                      o.line_number ≤ fam.line_number) →
                    find_address sm fi = some fam.address)
                 ∧ ((∀ fam ∈ lines, fi.line.getD 0 < fam.line_number) →
                     find_address sm fi = none)))) :=
  find_address_characterization

/-- Witness for C2 at the §8a scenario: querying `/src/app.c` line 5 returns
address 108, by instantiating the theorem's greatest-line conjunct. -/
theorem find_address_spec_witness :
    find_address exampleSourceMap ⟨"/src/app.c", some 5, .LeftEdge⟩ = some 108 := by
  have hfiles : ∀ off, (exampleSourceMap.units_parsed off).file_to_address.Pairwise
      (fun a b => a.1.data < b.1.data) := by
    intro off
    show (transform_unit_debug_line 5 exampleRows
      ["/src/app.c"]).file_to_address.Pairwise (fun a b => a.1.data < b.1.data)
    decide
  have hlines : ∀ off, ∀ p ∈ (exampleSourceMap.units_parsed off).file_to_address,
      p.2.Pairwise (fun a b => a.line_number < b.line_number) := by
    intro off
    show ∀ p ∈ (transform_unit_debug_line 5 exampleRows
      ["/src/app.c"]).file_to_address,
      p.2.Pairwise (fun a b => a.line_number < b.line_number)
    decide
  have h := ((find_address_spec exampleSourceMap ⟨"/src/app.c", some 5, .LeftEdge⟩
      (by decide) hfiles hlines).2 0
      (by decide)).2 [⟨3, 100⟩, ⟨4, 104⟩, ⟨5, 108⟩] (by decide)
  exact h.1 ⟨5, 108⟩ (by decide) (by decide) (by decide)

/-! ## Lemmas about the `BTreeMap` model, used for the round-trip claim -/

theorem btreeLookup_insert_self {κ γ : Type} [LinearOrder κ] (k : κ) (v : γ) :
    ∀ m : List (κ × γ), btreeLookup k (btreeInsert k v m) = some v := by
  intro m
  induction m with
  | nil => simp [btreeInsert, btreeLookup]
  | cons hd tl ih =>
    by_cases h1 : k < hd.1
    · simp [btreeInsert, btreeLookup, h1]
    · by_cases h2 : k = hd.1
      · simp [btreeInsert, btreeLookup, h1, h2]
      · simp only [btreeInsert, h1, h2, if_false]
        simp only [btreeLookup, h2, if_false]
        exact ih

theorem btreeLookup_insert_ne {κ γ : Type} [LinearOrder κ] {k k2 : κ} (v : γ)
    (hne : k2 ≠ k) : ∀ m : List (κ × γ),
      btreeLookup k2 (btreeInsert k v m) = btreeLookup k2 m := by
  intro m
  induction m with
  | nil => simp [btreeInsert, btreeLookup, hne]
  | cons hd tl ih =>
    by_cases h1 : k < hd.1
    · simp [btreeInsert, btreeLookup, h1, hne]
    · by_cases h2 : k = hd.1
      · subst h2
        simp [btreeInsert, btreeLookup, h1, hne]
      · simp only [btreeInsert, h1, h2, if_false]
        by_cases h3 : k2 = hd.1 <;> simp [btreeLookup, h3, ih]

theorem btreeLookup_mem {κ γ : Type} [DecidableEq κ] {k : κ} {v : γ} :
    ∀ {m : List (κ × γ)}, btreeLookup k m = some v → (k, v) ∈ m := by
  intro m
  induction m with
  | nil => intro h; simp [btreeLookup] at h
  | cons hd tl ih =>
    intro h
    by_cases h1 : k = hd.1
    · simp only [btreeLookup, h1, if_true, Option.some.injEq] at h
      subst h1
      rw [← h]
      simp
    · simp only [btreeLookup, h1, if_false] at h
      exact List.mem_cons_of_mem _ (ih h)

theorem btreeLookup_modify_ne {κ γ : Type} [DecidableEq κ] {k k2 : κ}
    (f : γ → γ) (hne : k2 ≠ k) : ∀ m : List (κ × γ),
      btreeLookup k2 (btreeModify k f m) = btreeLookup k2 m := by
  intro m
  induction m with
  | nil => simp [btreeModify]
  | cons hd tl ih =>
    by_cases h1 : k = hd.1
    · subst h1
      simp [btreeModify, btreeLookup, hne]
    · by_cases h2 : k2 = hd.1 <;> simp [btreeModify, btreeLookup, h1, h2, ih]

theorem btreeLookup_modify_self {κ γ : Type} [DecidableEq κ] {k : κ} {v : γ}
    (f : γ → γ) : ∀ {m : List (κ × γ)}, btreeLookup k m = some v →
      btreeLookup k (btreeModify k f m) = some (f v) := by
  intro m
  induction m with
  | nil => intro h; simp [btreeLookup] at h
  | cons hd tl ih =>
    intro h
    by_cases h1 : k = hd.1
    · simp only [btreeLookup, h1, if_true, Option.some.injEq] at h
      subst h
      simp [btreeModify, btreeLookup, h1]
    · simp only [btreeLookup, h1, if_false] at h
      simp [btreeModify, btreeLookup, h1, Ne.symm h1, ih h]

/-- `fileRowsStep` leaves other file indices untouched. -/
theorem fileRowsStep_lookup_ne {m : List (Nat × List (Nat × Nat))} {fi fi2 ln a : Nat}
    (hne : fi2 ≠ fi) :
    btreeLookup fi2 (fileRowsStep m fi ln a) = btreeLookup fi2 m := by
  unfold fileRowsStep
  rcases hl : btreeLookup fi m with _ | inner
  · simp only [hl]
    rw [btreeLookup_modify_ne _ hne, btreeLookup_insert_ne _ hne]
  · simp only [hl]
    rw [btreeLookup_modify_ne _ hne]

/-- `fileRowsStep` updates the target file index by inserting the line. -/
theorem fileRowsStep_lookup_self {m : List (Nat × List (Nat × Nat))} {fi ln a : Nat} :
    btreeLookup fi (fileRowsStep m fi ln a) =
      some (btreeInsert ln a ((btreeLookup fi m).getD [])) := by
  unfold fileRowsStep
  rcases hl : btreeLookup fi m with _ | inner
  · simp only [hl]
    exact btreeLookup_modify_self _ (btreeLookup_insert_self fi [] m)
  · simp only [hl]
    exact btreeLookup_modify_self _ hl

/-- First component of the row-loop step of `transform_debug_line_address`. -/
def stepAddr (m : List (Nat × File)) (r : LineRow) : List (Nat × File) :=
  btreeInsert r.address ⟨r.file_index, r.column, r.line⟩ m

/-- Second component of the row-loop step. -/
def stepFile (m : List (Nat × List (Nat × Nat))) (r : LineRow) :
    List (Nat × List (Nat × Nat)) :=
  fileRowsStep m r.file_index (r.line.getD 0) r.address

/-- The paired fold of the row loop is the pair of the two separate folds. -/
theorem transform_fold_proj : ∀ (rows : List LineRow) (m1 : List (Nat × File))
    (m2 : List (Nat × List (Nat × Nat))),
    rows.foldl
      (fun (maps : List (Nat × File) × List (Nat × List (Nat × Nat))) row =>
        (btreeInsert row.address ⟨row.file_index, row.column, row.line⟩ maps.1,
         fileRowsStep maps.2 row.file_index (row.line.getD 0) row.address))
      (m1, m2) =
      (rows.foldl stepAddr m1, rows.foldl stepFile m2) := by
  intro rows
  induction rows with
  | nil => intro m1 m2; rfl
  | cons r rest ih =>
    intro m1 m2
    simp only [List.foldl_cons]
    exact ih _ _

theorem addrFold_lookup_ne : ∀ (rows : List LineRow) (m : List (Nat × File)) (a : Nat),
    (∀ r2 ∈ rows, r2.address ≠ a) →
    btreeLookup a (rows.foldl stepAddr m) = btreeLookup a m := by
  intro rows
  induction rows with
  | nil => intro m a _; rfl
  | cons r rest ih =>
    intro m a hne
    simp only [List.foldl_cons]
    rw [ih _ _ (fun r2 h2 => hne r2 (List.mem_cons_of_mem _ h2))]
    simp only [stepAddr]
    exact btreeLookup_insert_ne _ (Ne.symm (hne r (List.mem_cons_self _ _))) _

theorem addrFold_lookup_last (pre post : List LineRow) (r : LineRow)
    (m : List (Nat × File))
    (hpost : ∀ r2 ∈ post, r2.address ≠ r.address) :
    btreeLookup r.address ((pre ++ r :: post).foldl stepAddr m) =
      some ⟨r.file_index, r.column, r.line⟩ := by
  rw [List.foldl_append, List.foldl_cons]
  rw [addrFold_lookup_ne post _ _ hpost]
  exact btreeLookup_insert_self _ _ _

/-- Composite lookup into the nested file map. -/
def doubleLook (m : List (Nat × List (Nat × Nat))) (fi ln : Nat) : Option Nat :=
  match btreeLookup fi m with
  | none => none
  | some inner => btreeLookup ln inner

theorem fileFold_double_ne : ∀ (rows : List LineRow)
    (m : List (Nat × List (Nat × Nat))) (fi ln : Nat),
    (∀ r2 ∈ rows, ¬(r2.file_index = fi ∧ r2.line.getD 0 = ln)) →
    doubleLook (rows.foldl stepFile m) fi ln = doubleLook m fi ln := by
  intro rows
  induction rows with
  | nil => intro m fi ln _; rfl
  | cons r rest ih =>
    intro m fi ln hne
    simp only [List.foldl_cons]
    rw [ih _ _ _ (fun r2 h2 => hne r2 (List.mem_cons_of_mem _ h2))]
    have hr := hne r (List.mem_cons_self _ _)
    unfold doubleLook stepFile
    by_cases hfi : r.file_index = fi
    · have hln : r.line.getD 0 ≠ ln := by
        intro hc
        exact hr ⟨hfi, hc⟩
      subst hfi
      rw [fileRowsStep_lookup_self]
      rcases hl : btreeLookup r.file_index m with _ | inner
      · simp only [hl, Option.getD_none]
        rw [btreeLookup_insert_ne _ (Ne.symm hln)]
        simp [btreeLookup]
      · simp only [hl, Option.getD_some]
        rw [btreeLookup_insert_ne _ (Ne.symm hln)]
    · have hstep : btreeLookup fi
          (fileRowsStep m r.file_index (r.line.getD 0) r.address) =
          btreeLookup fi m :=
        fileRowsStep_lookup_ne (fun h => hfi h.symm)
      rw [hstep]

theorem fileFold_double_last (pre post : List LineRow) (r : LineRow)
    (m : List (Nat × List (Nat × Nat)))
    (hpost : ∀ r2 ∈ post, ¬(r2.file_index = r.file_index ∧
      r2.line.getD 0 = r.line.getD 0)) :
    doubleLook ((pre ++ r :: post).foldl stepFile m) r.file_index (r.line.getD 0) =
      some r.address := by
  rw [List.foldl_append, List.foldl_cons]
  rw [fileFold_double_ne post _ _ _ hpost]
  unfold doubleLook stepFile
  rw [fileRowsStep_lookup_self]
  exact btreeLookup_insert_self _ _ _

theorem btreeLookupStr_insert_self (k : String) (v : Nat) :
    ∀ m : List (String × Nat), btreeLookup k (btreeInsertStr k v m) = some v := by
  intro m
  induction m with
  | nil => simp [btreeInsertStr, btreeLookup]
  | cons hd tl ih =>
    by_cases h1 : k.data < hd.1.data
    · simp [btreeInsertStr, btreeLookup, h1]
    · by_cases h2 : k = hd.1
      · simp [btreeInsertStr, btreeLookup, h1, h2]
      · simp only [btreeInsertStr, h1, h2, if_false]
        simp only [btreeLookup, h2, if_false]
        exact ih

theorem btreeLookupStr_insert_ne {k k2 : String} (v : Nat)
    (hne : k2 ≠ k) : ∀ m : List (String × Nat),
      btreeLookup k2 (btreeInsertStr k v m) = btreeLookup k2 m := by
  intro m
  induction m with
  | nil => simp [btreeInsertStr, btreeLookup, hne]
  | cons hd tl ih =>
    by_cases h1 : k.data < hd.1.data
    · simp [btreeInsertStr, btreeLookup, h1, hne]
    · by_cases h2 : k = hd.1
      · subst h2
        simp [btreeInsertStr, btreeLookup, h1, hne]
      · simp only [btreeInsertStr, h1, h2, if_false]
        by_cases h3 : k2 = hd.1 <;> simp [btreeLookup, h3, ih]

theorem offsetsFold_lookup (uo : Nat) : ∀ (ps : List String)
    (m : List (String × Nat)) (p : String),
    btreeLookup p (ps.foldl (fun m q => btreeInsertStr q uo m) m) =
      if p ∈ ps then some uo else btreeLookup p m := by
  intro ps
  induction ps with
  | nil => intro m p; simp
  | cons q rest ih =>
    intro m p
    simp only [List.foldl_cons]
    rw [ih]
    by_cases hmem : p ∈ rest
    · simp [hmem]
    · rw [if_neg hmem]
      by_cases hpq : p = q
      · subst hpq
        rw [if_pos (List.mem_cons_self _ _)]
        exact btreeLookupStr_insert_self _ _ _
      · rw [if_neg (by simp [hpq, hmem]), btreeLookupStr_insert_ne _ hpq]

/-- `DwarfSourceMap::new` applied to the single `UnitFiles` record of unit
`uo` (its canonical path list), with `units_parsed` returning the unit's
lazily parsed tables (the pure value `update_unit_debug_info` caches), and
the directory map left by any prior `set_directory_map` calls. -/
def singleUnitSourceMap (version uo : Nat) (rows : List LineRow)
    (paths : List String) (dm : List (String × String)) : DwarfSourceMap :=
  { file_sorted_unit_offsets := paths.foldl (fun m q => btreeInsertStr q uo m) [],
    units_parsed := fun _ => transform_unit_debug_line version rows paths,
    directory_map := dm }

/-- Two rows of one line program sharing code address 10 for different
files and lines. -/
def dupRows : List LineRow :=
  [⟨10, 0, some 5, .LeftEdge, false⟩, ⟨10, 1, some 9, .LeftEdge, false⟩]

/-- C3 counterexample: with rows `(addr 10, a.c line 5)` and
`(addr 10, b.c line 9)` in one unit, the pair `(a.c, 5)` is present in the
line program and `find_address` returns 10, but `find_line_info 10` yields
file `b.c` (not the stored canonical path `a.c`) and line 9 > 5 — the
second `BTreeMap::insert` at address 10 overwrote the first row. -/
theorem roundtrip_line_level_counterexample :
    find_address (singleUnitSourceMap 5 0 dupRows ["a.c", "b.c"] [])
        ⟨"a.c", some 5, .LeftEdge⟩ = some 10 ∧
    find_line_info (singleUnitSourceMap 5 0 dupRows ["a.c", "b.c"] []) 0 10 =
      .ok (some ⟨"b.c", some 9, .LeftEdge⟩) ∧
    ("b.c" : String) ≠ "a.c" ∧ ¬(9 ≤ 5) := by
  refine ⟨by decide, by rfl, by decide, by decide⟩

/-- Line-program rows whose single row names file index 5 while the unit
stores a single path: the states the C1 amendment excludes. -/
def oobRows : List LineRow :=
  [⟨10, 5, some 7, .LeftEdge, false⟩]

/-- C1 counterexample: the unit's table records address 10 (so the offset
does not precede every recorded address), yet the lookup at 10 neither
returns that entry's `LineInfo` nor `none`: the row's file index 5 is
outside the one-entry path table, and the source's
`unit.paths[file_info.file_index]` indexing panics — the modelled
out-of-bounds error. -/
theorem find_line_info_panic_counterexample :
    ((singleUnitSourceMap 5 0 oobRows ["a.c"] []).units_parsed 0).address_to_file =
      [(10, ⟨5, .LeftEdge, some 7⟩)] ∧
    find_line_info (singleUnitSourceMap 5 0 oobRows ["a.c"] []) 0 10 =
      .error "index out of bounds" :=
  ⟨rfl, rfl⟩

/-- C3 (amended): for a unit whose rows have pairwise-distinct code
addresses, for every `(file, line)` pair present in the line program —
witnessed by the last row `r` carrying that pair — `find_address` on the
stored canonical path and line returns `r`'s address, and `find_line_info`
at that address returns a `LineInfo` whose file is the stored canonical
path with the registered remap rules applied (the stored path itself when
none are registered) and whose line is at most (indeed equal to) the
requested line.  The sortedness hypotheses hold for every table the
`BTreeMap` construction produces and are discharged by evaluation in the
witness. -/
theorem roundtrip_line_level
    (version uo : Nat) (rows pre post : List LineRow) (r : LineRow) (l : Nat)
    (paths : List String) (dm : List (String × String)) (p : String)
    (hsplit : rows = pre ++ r :: post)
    (hline : r.line = some l)
    (hlast : ∀ r2 ∈ post, ¬(r2.file_index = r.file_index ∧ r2.line.getD 0 = l))
    (hdistinct : rows.Pairwise (fun a b => a.address ≠ b.address))
    (hpath : paths.get? r.file_index = some p)
    (hcanon : escapedName p = p)
    (hsort1 : (singleUnitSourceMap version uo rows paths dm).file_sorted_unit_offsets.Pairwise
      (fun a b => a.1.data < b.1.data))
    (hsort2 : (transform_unit_debug_line version rows paths).file_to_address.Pairwise
      (fun a b => a.1.data < b.1.data))
    (hsort3 : ∀ pr ∈ (transform_unit_debug_line version rows paths).file_to_address,
      pr.2.Pairwise (fun a b => a.line_number < b.line_number))
    (hsort4 : (transform_unit_debug_line version rows paths).address_to_file.Pairwise
      (fun a b => a.1 < b.1)) :
    find_address (singleUnitSourceMap version uo rows paths dm) ⟨p, some l, .LeftEdge⟩ =
        some r.address ∧
    ∃ li, find_line_info (singleUnitSourceMap version uo rows paths dm) uo r.address =
        .ok (some li) ∧
      li.file_path = applyDirectoryMap dm p ∧
      ∃ l2, li.line = some l2 ∧ l2 ≤ l := by
  have hpmem : p ∈ paths := by
    obtain ⟨hlt, hg⟩ := List.get?_eq_some.mp hpath
    rw [← hg]
    exact List.get_mem _ _ _
  have hgetDp : paths.getD r.file_index "" = p := by
    obtain ⟨hlt, hg⟩ := List.get?_eq_some.mp hpath
    rw [listGetD_eq_get _ _ _ hlt, hg]
  -- membership of the canonical path in the file-to-unit index
  have hidxlook : btreeLookup p
      (singleUnitSourceMap version uo rows paths dm).file_sorted_unit_offsets = some uo := by
    show btreeLookup p (paths.foldl (fun m q => btreeInsertStr q uo m) []) = some uo
    rw [offsetsFold_lookup]
    simp [hpmem]
  have hidxmem : (p, uo) ∈
      (singleUnitSourceMap version uo rows paths dm).file_sorted_unit_offsets :=
    btreeLookup_mem hidxlook
  -- the two raw tables are the two separate folds
  have htrans : transform_debug_line_address version rows =
      ⟨rows.foldl stepAddr [],
       (rows.foldl stepFile (if version ≤ 4 then [(0, [])] else [])).map
         (fun p2 => (p2.1, p2.2.map (fun q => ⟨q.1, q.2⟩)))⟩ := by
    simp only [transform_debug_line_address]
    rw [transform_fold_proj]
  -- the address-sorted table holds r's row
  have hpostaddr : ∀ r2 ∈ post, r2.address ≠ r.address := by
    rw [hsplit] at hdistinct
    have h1 := (List.pairwise_append.mp hdistinct).2.1
    have h2 := (List.pairwise_cons.mp h1).1
    exact fun r2 hm => Ne.symm (h2 r2 hm)
  have haddrlook : btreeLookup r.address (rows.foldl stepAddr []) =
      some ⟨r.file_index, r.column, r.line⟩ := by
    rw [hsplit]
    exact addrFold_lookup_last pre post r [] hpostaddr
  have haddrA : (transform_unit_debug_line version rows paths).address_to_file =
      rows.foldl stepAddr [] := by
    simp only [transform_unit_debug_line, htrans]
  have haddrmem : (r.address, (⟨r.file_index, r.column, r.line⟩ : File)) ∈
      (transform_unit_debug_line version rows paths).address_to_file := by
    rw [haddrA]
    exact btreeLookup_mem haddrlook
  -- the file-sorted table holds r's (line, address)
  have hlast2 : ∀ r2 ∈ post, ¬(r2.file_index = r.file_index ∧
      r2.line.getD 0 = r.line.getD 0) := by
    intro r2 hm
    rw [hline]
    exact hlast r2 hm
  have hdbl : doubleLook
      (rows.foldl stepFile (if version ≤ 4 then [(0, [])] else []))
      r.file_index (r.line.getD 0) = some r.address := by
    rw [hsplit]
    exact fileFold_double_last pre post r _ hlast2
  unfold doubleLook at hdbl
  rcases hfl : btreeLookup r.file_index
      (rows.foldl stepFile (if version ≤ 4 then [(0, [])] else [])) with _ | inner
  · rw [hfl] at hdbl
    simp at hdbl
  rw [hfl] at hdbl
  simp only at hdbl
  have hfimem := btreeLookup_mem hfl
  have hlnmem : (r.line.getD 0, r.address) ∈ inner := btreeLookup_mem hdbl
  have hfileB : (transform_unit_debug_line version rows paths).file_to_address =
      ((rows.foldl stepFile (if version ≤ 4 then [(0, [])] else [])).map
        (fun p2 => (p2.1, p2.2.map (fun q => (⟨q.1, q.2⟩ : FileAddressMap))))).map
        (fun p2 => (transform_file_index p2.1 paths, p2.2)) := by
    simp only [transform_unit_debug_line, htrans]
  have htfi : transform_file_index r.file_index paths = p := by
    unfold transform_file_index
    rw [hpath]
  have hfilemem : (p, inner.map (fun q => (⟨q.1, q.2⟩ : FileAddressMap))) ∈
      (transform_unit_debug_line version rows paths).file_to_address := by
    rw [hfileB]
    rw [← htfi]
    exact List.mem_map_of_mem _ (List.mem_map_of_mem _ hfimem)
  have hfammem : (⟨r.line.getD 0, r.address⟩ : FileAddressMap) ∈
      inner.map (fun q => (⟨q.1, q.2⟩ : FileAddressMap)) :=
    List.mem_map_of_mem _ hlnmem
  have hlval : r.line.getD 0 = l := by rw [hline]; rfl
  constructor
  · -- find_address returns r.address
    have hspec := find_address_characterization
      (singleUnitSourceMap version uo rows paths dm)
      ⟨p, some l, .LeftEdge⟩ hsort1 (fun off => hsort2) (fun off => hsort3)
    have happ := (hspec.2 uo (by
        show ((escapedName p, uo)) ∈ _
        rw [hcanon]
        exact hidxmem)).2
      (inner.map (fun q => (⟨q.1, q.2⟩ : FileAddressMap)))
      (by
        show ((escapedName p, _)) ∈ _
        rw [hcanon]
        exact hfilemem)
    have hres := happ.1 ⟨r.line.getD 0, r.address⟩ hfammem
      (by simp [hlval])
      (by
        intro o ho hle
        simp only [Option.getD_some] at hle
        simpa [hlval] using hle)
    exact hres
  · -- find_line_info at r.address
    have hspec := find_line_info_characterization
      (singleUnitSourceMap version uo rows paths dm) uo r.address hsort4
    have hfi_lt : r.file_index < paths.length := (List.get?_eq_some.mp hpath).1
    rcases hres : find_line_info (singleUnitSourceMap version uo rows paths dm)
        uo r.address with err | o
    · -- the modelled panic cannot happen: r's path index is in range
      obtain ⟨e, hemem, hele, hmax, hoob⟩ := hspec.2.2 err hres
      have hkeyeq0 : e.1 = r.address :=
        le_antisymm hele (hmax _ haddrmem (le_refl _))
      have hemem0 : e ∈ (transform_unit_debug_line version rows paths).address_to_file :=
        hemem
      have heq0 : e = (r.address, (⟨r.file_index, r.column, r.line⟩ : File)) := by
        obtain ⟨⟨i1, hi1⟩, hg1⟩ := List.mem_iff_get.mp hemem0
        obtain ⟨⟨i2, hi2⟩, hg2⟩ := List.mem_iff_get.mp haddrmem
        have hij : i1 = i2 := strictSorted_key_inj hsort4 i1 i2 hi1 hi2
          (by rw [hg1, hg2, hkeyeq0])
        subst hij
        rw [← hg1, ← hg2]
      rw [heq0] at hoob
      exact absurd hfi_lt (not_lt.mpr hoob)
    · cases o with
      | none =>
        have := hspec.1.mp hres _ haddrmem
        omega
      | some li =>
        obtain ⟨e, hemem, hele, hmax, hinr, hfile, hlineEq, hcol⟩ := hspec.2.1 li hres
        have hemem2 : e ∈ (transform_unit_debug_line version rows paths).address_to_file :=
          hemem
        have hkeyeq : e.1 = r.address :=
          le_antisymm hele (hmax _ haddrmem (le_refl _))
        have heq : e = (r.address, (⟨r.file_index, r.column, r.line⟩ : File)) := by
          obtain ⟨⟨i1, hi1⟩, hg1⟩ := List.mem_iff_get.mp hemem2
          obtain ⟨⟨i2, hi2⟩, hg2⟩ := List.mem_iff_get.mp haddrmem
          have : i1 = i2 := by
            refine strictSorted_key_inj hsort4 i1 i2 hi1 hi2 ?_
            rw [hg1, hg2, hkeyeq]
          subst this
          rw [← hg1, ← hg2]
        have hfile2 : li.file_path = applyDirectoryMap dm (paths.getD e.2.file_index "") :=
          hfile
        refine ⟨li, rfl, ?_, ?_⟩
        · rw [hfile2, heq, hgetDp]
        · refine ⟨l, ?_, le_refl _⟩
          rw [hlineEq, heq, hline]

/-- Witness for C3 at the scenario rows: querying `/src/app.c` line 4 gives
address 104, and looking 104 back up returns the same file and line. -/
theorem roundtrip_line_level_witness :
    find_address (singleUnitSourceMap 5 0 exampleRows ["/src/app.c"] [])
        ⟨"/src/app.c", some 4, .LeftEdge⟩ = some 104 ∧
    ∃ li, find_line_info (singleUnitSourceMap 5 0 exampleRows ["/src/app.c"] []) 0 104 =
        .ok (some li) ∧
      li.file_path = applyDirectoryMap [] "/src/app.c" ∧
      ∃ l2, li.line = some l2 ∧ l2 ≤ 4 :=
  roundtrip_line_level 5 0 exampleRows
    [⟨100, 0, some 3, .LeftEdge, false⟩] [⟨108, 0, some 5, .LeftEdge, false⟩]
    ⟨104, 0, some 4, .LeftEdge, false⟩ 4 ["/src/app.c"] [] "/src/app.c"
    (by decide) rfl (by decide) (by decide) rfl (by decide)
    (by decide) (by decide) (by decide) (by decide)

/-! ## Subprogram index (`crates/dwarf/src/dwarf/subroutine.rs`) -/

/-- The attributes of a DIE that `read_subprogram_header` reads. -/
structure DieEntry where
  tag : Nat
  name : Option String
  low_pc : Option AttrValue
  high_pc : Option AttrValue
  frame_base : Option AttrValue
  entry_offset : Nat
deriving Repr, DecidableEq

structure Subroutine where
  name : Option String
  low_pc : Nat
  high_pc : Nat
  unit_offset : Nat
  entry_offset : Nat
  frame_base : Option WasmLoc
deriving Repr, DecidableEq

/-- Tail of `read_subprogram_header` once `low_pc`/`high_pc` are resolved:
`size = high_pc - low_pc` (u64; underflow is the checked-arithmetic panic,
modelled as an error), zero size is dropped, then the frame base is decoded
and the subroutine built. -/
def finishSubprogram (e : DieEntry) (unit_offset low_pc high_pc : Nat) :
    Except String (Option Subroutine) :=
  if high_pc < low_pc then .error "attempt to subtract with overflow"
  else if high_pc - low_pc = 0 then .ok none
  else
    match e.frame_base with
    | some attr => do
      let loc ← read_wasm_location attr
      .ok (some ⟨e.name, low_pc, high_pc, unit_offset, e.entry_offset, some loc⟩)
    | none => .ok (some ⟨e.name, low_pc, high_pc, unit_offset, e.entry_offset, none⟩)

/-- `read_subprogram_header` (subroutine.rs lines 73-125): only
`DW_TAG_subprogram`/`DW_TAG_lexical_block` entries with an `Addr` `low_pc`
and a `Udata`-size or `Addr` `high_pc` are considered; other `high_pc`
forms hit `unreachable!`.  u64 addition is checked (overflow panics,
modelled as an error). -/
def read_subprogram_header (e : DieEntry) (unit_offset : Nat) :
    Except String (Option Subroutine) :=
  if e.tag = DW_TAG_subprogram ∨ e.tag = DW_TAG_lexical_block then
    match e.low_pc with
    | some (.Addr low_pc) =>
      match e.high_pc with
      | some (.Udata size) =>
        if low_pc + size < 2 ^ 64 then
          finishSubprogram e unit_offset low_pc (low_pc + size)
        else .error "attempt to add with overflow"
      | some (.Addr high_pc) => finishSubprogram e unit_offset low_pc high_pc
      | some _ => .error "unreachable high_pc form"
      | none => .ok none
    | _ => .ok none
  else .ok none

/-- A DIE tree: the entry and its child subtrees, in document order. -/
inductive DieTree where
  | node (entry : DieEntry) (children : List DieTree)

def DieTree.entry : DieTree → DieEntry
  | .node e _ => e

mutual

/-- `transform_subprogram_rec` (subroutine.rs lines 46-71): read the node's
own header, recurse into every child that is not a variable or formal
parameter, and push the node's own subroutine after its children
(post-order). -/
def transform_subprogram_rec (t : DieTree) (uo : Nat) :
    Except String (List Subroutine) :=
  match t with
  | .node e cs => do
    let sub ← read_subprogram_header e uo
    let subs ← transform_subprogram_children cs uo
    .ok (subs ++ sub.toList)

def transform_subprogram_children (cs : List DieTree) (uo : Nat) :
    Except String (List Subroutine) :=
  match cs with
  | [] => .ok []
  | c :: rest =>
    if c.entry.tag = DW_TAG_variable ∨ c.entry.tag = DW_TAG_formal_parameter then
      transform_subprogram_children rest uo
    else do
      let l ← transform_subprogram_rec c uo
      let ls ← transform_subprogram_children rest uo
      .ok (l ++ ls)

end

/-- Rust `Range::contains` on a subroutine's half-open pc range. -/
def containsPc (s : Subroutine) (pc : Nat) : Prop :=
  s.low_pc ≤ pc ∧ pc < s.high_pc

instance (s : Subroutine) (pc : Nat) : Decidable (containsPc s pc) := by
  unfold containsPc
  infer_instance

/-- The first-match linear scan `.iter().filter(|s| s.pc.contains(&offset)).next()`
shared by `variable_name_list`, `get_frame_base` and `display_variable`. -/
def find_subroutine (subs : List Subroutine) (offset : Nat) : Option Subroutine :=
  subs.find? (fun s => decide (containsPc s offset))

/-- `DwarfSubroutineMap::get_frame_base` (subroutine.rs lines 203-215). -/
def get_frame_base (subs : List Subroutine) (code_offset : Nat) :
    Except String (Option WasmLoc) :=
  match find_subroutine subs code_offset with
  | some s => .ok s.frame_base
  | none => .error "failed to determine subroutine"

/-- The subroutines a subtree records (empty on a failed parse). -/
def recordedD (t : DieTree) (uo : Nat) : List Subroutine :=
  match transform_subprogram_rec t uo with
  | .ok l => l
  | .error _ => []

def RangeSub (s s2 : Subroutine) : Prop :=
  ∀ pc, containsPc s pc → containsPc s2 pc

def RangesDisjoint (s s2 : Subroutine) : Prop :=
  ∀ pc, ¬(containsPc s pc ∧ containsPc s2 pc)

/-- The invariant §3 of the spec states for the subroutine data model:
ranges may overlap only by nesting.  Sibling subtrees record disjoint
ranges, and everything a subtree records lies inside the range its root
records (when it records one). -/
inductive WellNested (uo : Nat) : DieTree → Prop where
  | mk : ∀ e cs,
      (∀ c ∈ cs, WellNested uo c) →
      List.Pairwise (fun c c2 => ∀ s ∈ recordedD c uo, ∀ s2 ∈ recordedD c2 uo,
        RangesDisjoint s s2) cs →
      (∀ s0, read_subprogram_header e uo = .ok (some s0) →
        ∀ c ∈ cs, ∀ s ∈ recordedD c uo, RangeSub s s0) →
      WellNested uo (.node e cs)

theorem find?_split {α : Type} (p : α → Bool) :
    ∀ (L : List α) a, L.find? p = some a →
      ∃ l1 l2, L = l1 ++ a :: l2 ∧ ∀ b ∈ l1, p b = false := by
  intro L
  induction L with
  | nil => intro a h; simp [List.find?] at h
  | cons x rest ih =>
    intro a h
    by_cases hx : p x
    · rw [List.find?_cons_of_pos _ hx] at h
      obtain rfl := Option.some.inj h
      exact ⟨[], rest, rfl, by simp⟩
    · rw [List.find?_cons_of_neg _ hx] at h
      obtain ⟨l1, l2, heq, hall⟩ := ih a h
      refine ⟨x :: l1, l2, by rw [heq]; rfl, ?_⟩
      intro b hb
      rcases List.mem_cons.mp hb with rfl | hb2
      · exact Bool.of_not_eq_true hx
      · exact hall b hb2

mutual

theorem chain_tree (uo pc : Nat) (t : DieTree) :
    ∀ L, transform_subprogram_rec t uo = .ok L → WellNested uo t →
      List.Pairwise (fun a b => containsPc a pc → containsPc b pc → RangeSub a b) L := by
  match t with
  | .node e cs =>
    intro L hok hwn
    rw [transform_subprogram_rec] at hok
    simp only [bind, Except.bind] at hok
    rcases hhdr : read_subprogram_header e uo with err | sub
    · rw [hhdr] at hok; simp at hok
    rw [hhdr] at hok
    rcases hch : transform_subprogram_children cs uo with err | subs
    · rw [hch] at hok; simp at hok
    rw [hch] at hok
    simp only [Except.ok.injEq] at hok
    subst hok
    cases hwn with
    | mk _ _ hwnc hdisj hnest =>
      have hc := chain_children uo pc cs subs hch hwnc hdisj
      rw [List.pairwise_append]
      refine ⟨hc.1, ?_, ?_⟩
      · cases sub <;> simp
      · intro a ha b hb
        cases sub with
        | none => simp at hb
        | some s0 =>
          simp only [Option.toList_some, List.mem_singleton] at hb
          subst hb
          obtain ⟨c, hcmem, hrec⟩ := hc.2 a ha
          intro _ _
          exact hnest b hhdr c hcmem a hrec

theorem chain_children (uo pc : Nat) (cs : List DieTree) :
    ∀ L, transform_subprogram_children cs uo = .ok L →
      (∀ c ∈ cs, WellNested uo c) →
      List.Pairwise (fun c c2 => ∀ s ∈ recordedD c uo, ∀ s2 ∈ recordedD c2 uo,
        RangesDisjoint s s2) cs →
      (List.Pairwise (fun a b => containsPc a pc → containsPc b pc → RangeSub a b) L ∧
       ∀ s ∈ L, ∃ c ∈ cs, s ∈ recordedD c uo) := by
  match cs with
  | [] =>
    intro L hok _ _
    rw [transform_subprogram_children] at hok
    simp only [Except.ok.injEq] at hok
    subst hok
    exact ⟨List.Pairwise.nil, by simp⟩
  | c :: rest =>
    intro L hok hwnc hdisj
    rw [transform_subprogram_children] at hok
    by_cases hskip : c.entry.tag = DW_TAG_variable ∨ c.entry.tag = DW_TAG_formal_parameter
    · rw [if_pos hskip] at hok
      have hres := chain_children uo pc rest L hok
        (fun c2 h => hwnc c2 (List.mem_cons_of_mem _ h)) hdisj.of_cons
      refine ⟨hres.1, ?_⟩
      intro s hs
      obtain ⟨c2, hc2, hr⟩ := hres.2 s hs
      exact ⟨c2, List.mem_cons_of_mem _ hc2, hr⟩
    · rw [if_neg hskip] at hok
      simp only [bind, Except.bind] at hok
      rcases h1 : transform_subprogram_rec c uo with e1 | l
      · rw [h1] at hok; simp at hok
      rw [h1] at hok
      rcases h2 : transform_subprogram_children rest uo with e2 | ls
      · rw [h2] at hok; simp at hok
      rw [h2] at hok
      simp only [Except.ok.injEq] at hok
      subst hok
      have hrecc : recordedD c uo = l := by
        unfold recordedD
        rw [h1]
      have ht := chain_tree uo pc c l h1 (hwnc c (List.mem_cons_self _ _))
      have hr := chain_children uo pc rest ls h2
        (fun c2 h => hwnc c2 (List.mem_cons_of_mem _ h)) hdisj.of_cons
      constructor
      · rw [List.pairwise_append]
        refine ⟨ht, hr.1, ?_⟩
        intro a ha b hb hca hcb
        obtain ⟨c2, hc2, hrec2⟩ := hr.2 b hb
        have hd := (List.pairwise_cons.mp hdisj).1 c2 hc2 a (hrecc ▸ ha) b hrec2
        exact absurd ⟨hca, hcb⟩ (hd pc)
      · intro s hs
        rcases List.mem_append.mp hs with hsl | hsr
        · exact ⟨c, List.mem_cons_self _ _, hrecc ▸ hsl⟩
        · obtain ⟨c2, hc2, hrec2⟩ := hr.2 s hsr
          exact ⟨c2, List.mem_cons_of_mem _ hc2, hrec2⟩

end

theorem finishSubprogram_some {e : DieEntry} {uo low high : Nat} {s : Subroutine}
    (h : finishSubprogram e uo low high = .ok (some s)) :
    s.low_pc = low ∧ s.high_pc = high ∧ low < high := by
  unfold finishSubprogram at h
  by_cases h1 : high < low
  · simp [h1] at h
  · by_cases h2 : high - low = 0
    · simp [h1, h2] at h
    · simp only [h1, h2, if_false] at h
      rcases hfb : e.frame_base with _ | attr
      · rw [hfb] at h
        simp only [Except.ok.injEq, Option.some.injEq] at h
        subst h
        exact ⟨rfl, rfl, by omega⟩
      · rw [hfb] at h
        simp only [bind, Except.bind] at h
        rcases hloc : read_wasm_location attr with e1 | loc
        · rw [hloc] at h; simp at h
        · rw [hloc] at h
          simp only [Except.ok.injEq, Option.some.injEq] at h
          subst h
          exact ⟨rfl, rfl, by omega⟩

/-- C4: a subroutine is recorded only when `low_pc` is a plain address,
`high_pc` is present, and the resulting size is nonzero — and then
`low_pc < high_pc`; moreover, over a well-nested DIE tree (the spec's §3
invariant: ranges overlap only by nesting), the post-order list makes the
first-match linear scan of `find_subroutine`/`get_frame_base` return the
innermost recorded range containing the queried pc. -/
theorem subprogram_index_spec :
    (∀ (e : DieEntry) (uo : Nat) (s : Subroutine),
      read_subprogram_header e uo = .ok (some s) →
      (∃ a, e.low_pc = some (.Addr a)) ∧ e.high_pc ≠ none ∧ s.low_pc < s.high_pc)
    ∧ (∀ (uo pc : Nat) (t : DieTree) (L : List Subroutine) (s2 : Subroutine),
        transform_subprogram_rec t uo = .ok L → WellNested uo t →
        s2 ∈ L → containsPc s2 pc →
        ∃ s, find_subroutine L pc = some s ∧ containsPc s pc ∧
          ∀ s3 ∈ L, containsPc s3 pc → RangeSub s s3)
    ∧ (∀ (subs : List Subroutine) (pc : Nat),
        (∀ s, find_subroutine subs pc = some s →
          get_frame_base subs pc = .ok s.frame_base)
        ∧ (find_subroutine subs pc = none →
          get_frame_base subs pc = .error "failed to determine subroutine")) := by
  refine ⟨?_, ?_, ?_⟩
  · intro e uo s h
    rw [read_subprogram_header] at h
    by_cases htag : e.tag = DW_TAG_subprogram ∨ e.tag = DW_TAG_lexical_block
    · rw [if_pos htag] at h
      rcases hlow : e.low_pc with _ | av
      · rw [hlow] at h; simp at h
      rcases av with a | n | n | n | n | n | n | bs | bs | st | o | _ <;> rw [hlow] at h <;>
        try simp at h
      rcases hhigh : e.high_pc with _ | av2
      · rw [hhigh] at h; simp at h
      rcases av2 with a2 | n2 | n2 | n2 | n2 | n2 | n2 | bs2 | bs2 | st2 | o2 | _ <;>
          rw [hhigh] at h <;> try simp at h
      · obtain ⟨hsl, hsh, hlt⟩ := finishSubprogram_some h
        exact ⟨⟨a, rfl⟩, by simp, by rw [hsl, hsh]; exact hlt⟩
      · by_cases hadd : a + n2 < 18446744073709551616
        · rw [if_pos hadd] at h
          obtain ⟨hsl, hsh, hlt⟩ := finishSubprogram_some h
          exact ⟨⟨a, rfl⟩, by simp, by rw [hsl, hsh]; exact hlt⟩
        · rw [if_neg hadd] at h
          simp at h
    · rw [if_neg htag] at h
      simp at h
  · intro uo pc t L s2 hok hwn hmem hcont
    have hchain := chain_tree uo pc t L hok hwn
    rcases hf : find_subroutine L pc with _ | s
    · unfold find_subroutine at hf
      have := List.find?_eq_none.mp hf s2 hmem
      simp [hcont] at this
    · have hps : containsPc s pc := by
        have := List.find?_some hf
        simpa using this
      refine ⟨s, rfl, hps, ?_⟩
      obtain ⟨l1, l2, hsplit2, hfail⟩ := find?_split _ L s hf
      intro s3 hs3 hc3
      rw [hsplit2] at hs3
      rcases List.mem_append.mp hs3 with h1 | h23
      · exact absurd (by simpa using hfail s3 h1) (by simp [hc3])
      · rcases List.mem_cons.mp h23 with rfl | h2
        · exact fun pc2 h => h
        · rw [hsplit2] at hchain
          have := ((List.pairwise_append.mp hchain).2.1)
          have := (List.pairwise_cons.mp this).1 s3 h2
          exact this hps hc3
  · intro subs pc
    constructor
    · intro s h
      unfold get_frame_base
      rw [h]
    · intro h
      unfold get_frame_base
      rw [h]

def exampleBlockEntry : DieEntry :=
  ⟨DW_TAG_lexical_block, none, some (.Addr 120), some (.Addr 140), none, 2⟩

def exampleSubEntry : DieEntry :=
  ⟨DW_TAG_subprogram, some "main", some (.Addr 100), some (.Udata 100), none, 1⟩

/-- A compile-unit root holding one subprogram `[100, 200)` that contains
one lexical block `[120, 140)`. -/
def exampleTree : DieTree :=
  .node ⟨0x11, none, none, none, none, 0⟩
    [.node exampleSubEntry [.node exampleBlockEntry []]]

/-- Witness for C4: on the concrete tree the scan at pc 130 returns the
lexical block `[120, 140)` — the innermost recorded range. -/
theorem subprogram_index_spec_witness :
    ∃ s, find_subroutine
        [⟨none, 120, 140, 0, 2, none⟩, ⟨some "main", 100, 200, 0, 1, none⟩] 130 =
        some s ∧
      containsPc s 130 ∧
      ∀ s3 ∈ [(⟨none, 120, 140, 0, 2, none⟩ : Subroutine),
        ⟨some "main", 100, 200, 0, 1, none⟩], containsPc s3 130 → RangeSub s s3 := by
  have htrans : transform_subprogram_rec exampleTree 0 =
      .ok [⟨none, 120, 140, 0, 2, none⟩, ⟨some "main", 100, 200, 0, 1, none⟩] := by
    rfl
  have hwnB : WellNested 0 (DieTree.node exampleBlockEntry []) := by
    refine WellNested.mk _ _ ?_ ?_ ?_
    · intro c hc
      exact absurd hc (List.not_mem_nil c)
    · exact List.Pairwise.nil
    · intro s0 h c hc
      exact absurd hc (List.not_mem_nil c)
  have hwnS : WellNested 0
      (DieTree.node exampleSubEntry [DieTree.node exampleBlockEntry []]) := by
    refine WellNested.mk _ _ ?_ ?_ ?_
    · intro c hc
      rw [List.mem_singleton] at hc
      subst hc
      exact hwnB
    · simp
    · intro s0 h c hc s hs
      rw [List.mem_singleton] at hc
      subst hc
      have hcomp : read_subprogram_header exampleSubEntry 0 =
          .ok (some ⟨some "main", 100, 200, 0, 1, none⟩) := by rfl
      rw [hcomp] at h
      simp only [Except.ok.injEq, Option.some.injEq] at h
      subst h
      have hrec : recordedD (DieTree.node exampleBlockEntry []) 0 =
          [⟨none, 120, 140, 0, 2, none⟩] := by rfl
      rw [hrec] at hs
      rw [List.mem_singleton] at hs
      subst hs
      intro pc hc2
      have h1 : 120 ≤ pc := hc2.1
      have h2 : pc < 140 := hc2.2
      exact ⟨(by omega : 100 ≤ pc), (by omega : pc < 200)⟩
  have hwnR : WellNested 0 exampleTree := by
    refine WellNested.mk _ _ ?_ ?_ ?_
    · intro c hc
      rw [List.mem_singleton] at hc
      subst hc
      exact hwnS
    · simp
    · intro s0 h c hc s hs
      have hcomp : read_subprogram_header ⟨0x11, none, none, none, none, 0⟩ 0 =
          .ok none := by rfl
      rw [hcomp] at h
      exact absurd h (by simp)
  exact subprogram_index_spec.2.1 0 130 exampleTree _ _ htrans hwnR
    (List.mem_cons_self _ _) (by decide)

/-! ## Variable discovery (`crates/dwarf/src/dwarf/variables.rs`) -/

/-- A DIE as the variable walker sees it: tag, name, pc-range attributes
(for lexical blocks), the location / data-member-location / const-value
attributes read by `transform_variable`, the DIE referenced by `DW_AT_type`
when it is a unit reference (`entries_tree` at that offset), and the child
DIEs.  The tree form models offset-based navigation; the self-reference
break of `structure_variable_recursive` cannot arise on trees. -/
inductive VDie where
  | node (tag : Nat) (name : Option String) (lowPc highPc : Option AttrValue)
      (location dml constVal : Option AttrValue) (ty : Option VDie)
      (children : List VDie)

inductive VariableExpression where
  | Location (attr : AttrValue)
  | ConstValue (bytes : List Nat)
  | Pointer
  | UnknownExpr (debug_info : String)
deriving Repr, DecidableEq

/-- `TypeDescripter`: a resolved `TypeOffset` carries the referenced DIE. -/
inductive TypeDescripter where
  | TypeRef (t : VDie)
  | Description (s : String)

structure SymbolVariable where
  name : Option String
  display_name : Option String
  contents : List VariableExpression
  ty_offset : TypeDescripter
  group_id : Int
  child_group_id : Option Int

/-- `transform_variable` (variables.rs lines 270-324): seed the contents
with `DW_AT_location`, else `DW_AT_data_member_location`; otherwise decode
`DW_AT_const_value` by variant (unsupported variants hit `unimplemented!`,
an error here); `DW_AT_type` unit references resolve to the referenced DIE.
String const values are modelled by their code points. -/
def transform_variable_content
    (location dml constVal : Option AttrValue) :
    Except String (Option VariableExpression) := do
  let content1 : Option VariableExpression :=
    match location with
    | some loc => some (.Location loc)
    | none =>
      match dml with
      | some loc => some (.Location loc)
      | none => none
  let content ←
    match constVal with
    | some constant =>
      if content1.isSome then pure content1
      else do
        let bytes ←
          match constant with
          | .Block bs => pure bs
          | .Data1 b => pure [b]
          | .Data2 b => pure (toLeBytes 2 b)
          | .Data4 b => pure (toLeBytes 4 b)
          | .Data8 b => pure (toLeBytes 8 b)
          | .Sdata b => pure (toLeBytes 8 (Int.toNat (b % 2 ^ 64)))
          | .Udata b => pure (toLeBytes 8 b)
          | .Str s2 => pure (s2.data.map Char.toNat)
          | _ => .error "unimplemented const-value variant"
        pure (some (.ConstValue bytes))
    | none => pure content1
  .ok content

/-- The record construction of `transform_variable`, split from the
content decoding above. -/
def transform_variable (name : Option String)
    (location dml constVal : Option AttrValue) (ty : Option VDie)
    (group_id : Int) : Except String SymbolVariable := do
  let content ← transform_variable_content location dml constVal
  let ty2 := match ty with
    | some t => TypeDescripter.TypeRef t
    | none => TypeDescripter.Description "<unnamed>"
  .ok { name := name, display_name := name, contents := content.toList,
        ty_offset := ty2, group_id := group_id, child_group_id := none }

/-- `transform_namespace` (variables.rs lines 326-345). -/
def transform_namespace (name : Option String) (group_id : Int) : SymbolVariable :=
  { name := name, display_name := name, contents := [],
    ty_offset := .Description "namespace", group_id := group_id,
    child_group_id := none }

/-- The group remap performed on entry of
`variables_in_unit_entry_recursive` (variables.rs lines 95-99). -/
def assign_group (g : Int) : Int :=
  if g < 10000 then (g - 1000 + 1) * 10000 else g + 1

/- The walkers recurse through `DW_AT_type` links, which on real DWARF are
arbitrary offsets; the source relies on the debug info being finite and
acyclic.  The embedding makes that explicit with a fuel argument threaded
through every recursive call (exhaustion is an error, excluded in the
theorems by the success hypothesis). -/

mutual

/-- `structure_variable_recursive` (variables.rs lines 155-268), on the DIE
`t` (a variable's own DIE or a node of its type chain).  Returns the final
state of the by-reference `parent_variable`, the variables pushed, and the
final running group id. -/
def structure_variable_recursive : Nat → VDie → SymbolVariable → Int →
    Except String (SymbolVariable × List SymbolVariable × Int)
  | 0, _, _, _ => .error "recursion limit exceeded"
  | fuel + 1, t, parent, g =>
    match t with
    | .node tag _name _low _high _loc _dml _cv ty children =>
      if tag = DW_TAG_class_type ∨ tag = DW_TAG_structure_type ∨
          tag = DW_TAG_union_type then
        let current_group_id := g
        let parent2 := { parent with child_group_id := some current_group_id }
        do
          let (out, g2) ← structure_members fuel children parent2
            current_group_id (g + 1)
          .ok (parent2, out, g2)
      else if tag = DW_TAG_pointer_type ∨ tag = DW_TAG_reference_type then
        let parent2 := { parent with contents := parent.contents ++ [.Pointer] }
        match ty with
        | some t2 => structure_variable_recursive fuel t2 parent2 g
        | none => .ok (parent2, [], g)
      else if tag = DW_TAG_const_type then
        match ty with
        | some t2 => structure_variable_recursive fuel t2 parent g
        | none => .ok (parent, [], g)
      else
        match ty with
        | some t2 => structure_variable_recursive fuel t2 parent g
        | none => .ok (parent, [], g)

/-- The `DW_TAG_member` loop of the class/structure/union branch.  The
parent variable is not touched by the loop, so only the pushed variables
and the group id are returned. -/
def structure_members : Nat → List VDie → SymbolVariable → Int → Int →
    Except String (List SymbolVariable × Int)
  | 0, _, _, _, _ => .error "recursion limit exceeded"
  | _fuel + 1, [], _, _, g => .ok ([], g)
  | fuel + 1, c :: rest, parent2, current_group_id, g =>
    match c with
    | .node ctag cname _clow _chigh cloc cdml ccv cty _cchildren =>
      if ctag = DW_TAG_member then do
        let var ← transform_variable cname cloc cdml ccv cty current_group_id
        let var2 : SymbolVariable :=
          { display_name := some ((parent2.name.getD "<unnamed>") ++ "." ++
              (var.name.getD "<unnamed>")),
            name := some (var.name.getD "<unnamed>"),
            contents := parent2.contents ++ var.contents,
            ty_offset := var.ty_offset,
            group_id := var.group_id,
            child_group_id := var.child_group_id }
        match var2.ty_offset with
        | .TypeRef tyDie => do
          let (var3, inner, g2) ← structure_variable_recursive fuel tyDie var2 g
          let (out, g3) ← structure_members fuel rest parent2 current_group_id g2
          .ok (inner ++ [var3] ++ out, g3)
        | .Description _ => do
          let (out, g3) ← structure_members fuel rest parent2 current_group_id g
          .ok (var2 :: out, g3)
      else structure_members fuel rest parent2 current_group_id g

end

mutual

/-- `variables_in_unit_entry_recursive` (variables.rs lines 84-153): remap
the running group id on entry, then walk the children. -/
def variables_in_unit_entry_recursive : Nat → VDie → Nat → Int → Int →
    Except String (List SymbolVariable × Int)
  | 0, _, _, _, _ => .error "recursion limit exceeded"
  | fuel + 1, t, code_offset, root_group_id, g =>
    match t with
    | .node _tag _name _low _high _loc _dml _cv _ty children =>
      unit_entry_children fuel children code_offset root_group_id
        (assign_group g)

/-- The child loop of `variables_in_unit_entry_recursive`. -/
def unit_entry_children : Nat → List VDie → Nat → Int → Int →
    Except String (List SymbolVariable × Int)
  | 0, _, _, _, _ => .error "recursion limit exceeded"
  | _fuel + 1, [], _, _, g => .ok ([], g)
  | fuel + 1, c :: rest, code_offset, root_group_id, g =>
    match c with
    | .node ctag cname clow chigh cloc cdml ccv cty _cchildren =>
      if ctag = DW_TAG_variable ∨ ctag = DW_TAG_formal_parameter then do
        let var ← transform_variable cname cloc cdml ccv cty root_group_id
        let (var2, inner, g2) ← structure_variable_recursive fuel c var g
        let (out, g3) ← unit_entry_children fuel rest code_offset root_group_id g2
        .ok (inner ++ [var2] ++ out, g3)
      else if ctag = DW_TAG_lexical_block then
        match clow with
        | some (.Addr low_pc) =>
          match chigh with
          | some (.Udata size) =>
            if low_pc + size < 2 ^ 64 then
              if low_pc ≤ code_offset ∧ code_offset < low_pc + size then do
                let (vars, g2) ← variables_in_unit_entry_recursive fuel c
                  code_offset root_group_id g
                let (out, g3) ← unit_entry_children fuel rest code_offset
                  root_group_id g2
                .ok (vars ++ out, g3)
              else unit_entry_children fuel rest code_offset root_group_id g
            else .error "attempt to add with overflow"
          | some (.Addr high_pc) =>
            if low_pc ≤ code_offset ∧ code_offset < high_pc then do
              let (vars, g2) ← variables_in_unit_entry_recursive fuel c
                code_offset root_group_id g
              let (out, g3) ← unit_entry_children fuel rest code_offset
                root_group_id g2
              .ok (vars ++ out, g3)
            else unit_entry_children fuel rest code_offset root_group_id g
          | some _ => .error "unreachable high_pc form"
          | none => unit_entry_children fuel rest code_offset root_group_id g
        | _ => unit_entry_children fuel rest code_offset root_group_id g
      else if ctag = DW_TAG_namespace then do
        let nsvar0 := transform_namespace cname root_group_id
        let nsvar := { nsvar0 with child_group_id := some g }
        let (vars, g2) ← variables_in_unit_entry_recursive fuel c code_offset g g
        let (out, g3) ← unit_entry_children fuel rest code_offset root_group_id g2
        .ok (vars ++ [nsvar] ++ out, g3)
      else unit_entry_children fuel rest code_offset root_group_id g

end

/-- A successfully transformed variable carries the group id and name it
was given. -/
theorem transform_variable_fields (name : Option String)
    (location dml constVal : Option AttrValue) (ty : Option VDie)
    (gid : Int) (v : SymbolVariable)
    (h : transform_variable name location dml constVal ty gid = .ok v) :
    v.group_id = gid ∧ v.name = name := by
  simp only [transform_variable, bind, Except.bind] at h
  cases hc : transform_variable_content location dml constVal with
  | error e => rw [hc] at h; exact Except.noConfusion h
  | ok c =>
    rw [hc] at h
    cases h
    exact ⟨rfl, rfl⟩

/-- Reattach pairs that have no parent yet to the enclosing namespace
variable. -/
def reparent (q : SymbolVariable)
    (prs : List (SymbolVariable × Option SymbolVariable)) :
    List (SymbolVariable × Option SymbolVariable) :=
  prs.map (fun pr => match pr.2 with
    | none => (pr.1, some q)
    | some p => (pr.1, some p))

/- Ghost-instrumented copies of the walkers: identical control flow, but
each emitted variable is paired with the variable whose `child_group_id`
names its group (`none` for top-level emissions of the current root).
`erase_walkers` proves they project onto the plain walkers. -/

mutual

def structure_variable_rec_paired : Nat → VDie → SymbolVariable → Int →
    Except String (SymbolVariable ×
      List (SymbolVariable × Option SymbolVariable) × Int)
  | 0, _, _, _ => .error "recursion limit exceeded"
  | fuel + 1, t, parent, g =>
    match t with
    | .node tag _name _low _high _loc _dml _cv ty children =>
      if tag = DW_TAG_class_type ∨ tag = DW_TAG_structure_type ∨
          tag = DW_TAG_union_type then
        let current_group_id := g
        let parent2 := { parent with child_group_id := some current_group_id }
        do
          let (out, g2) ← structure_members_paired fuel children parent2
            current_group_id (g + 1)
          .ok (parent2, out, g2)
      else if tag = DW_TAG_pointer_type ∨ tag = DW_TAG_reference_type then
        let parent2 := { parent with contents := parent.contents ++ [.Pointer] }
        match ty with
        | some t2 => structure_variable_rec_paired fuel t2 parent2 g
        | none => .ok (parent2, [], g)
      else if tag = DW_TAG_const_type then
        match ty with
        | some t2 => structure_variable_rec_paired fuel t2 parent g
        | none => .ok (parent, [], g)
      else
        match ty with
        | some t2 => structure_variable_rec_paired fuel t2 parent g
        | none => .ok (parent, [], g)

def structure_members_paired : Nat → List VDie → SymbolVariable → Int → Int →
    Except String (List (SymbolVariable × Option SymbolVariable) × Int)
  | 0, _, _, _, _ => .error "recursion limit exceeded"
  | _fuel + 1, [], _, _, g => .ok ([], g)
  | fuel + 1, c :: rest, parent2, current_group_id, g =>
    match c with
    | .node ctag cname _clow _chigh cloc cdml ccv cty _cchildren =>
      if ctag = DW_TAG_member then do
        let var ← transform_variable cname cloc cdml ccv cty current_group_id
        let var2 : SymbolVariable :=
          { display_name := some ((parent2.name.getD "<unnamed>") ++ "." ++
              (var.name.getD "<unnamed>")),
            name := some (var.name.getD "<unnamed>"),
            contents := parent2.contents ++ var.contents,
            ty_offset := var.ty_offset,
            group_id := var.group_id,
            child_group_id := var.child_group_id }
        match var2.ty_offset with
        | .TypeRef tyDie => do
          let (var3, inner, g2) ← structure_variable_rec_paired fuel tyDie var2 g
          let (out, g3) ← structure_members_paired fuel rest parent2
            current_group_id g2
          .ok (inner ++ [(var3, some parent2)] ++ out, g3)
        | .Description _ => do
          let (out, g3) ← structure_members_paired fuel rest parent2
            current_group_id g
          .ok ((var2, some parent2) :: out, g3)
      else structure_members_paired fuel rest parent2 current_group_id g

end

mutual

def unit_entry_rec_paired : Nat → VDie → Nat → Int → Int →
    Except String (List (SymbolVariable × Option SymbolVariable) × Int)
  | 0, _, _, _, _ => .error "recursion limit exceeded"
  | fuel + 1, t, code_offset, root_group_id, g =>
    match t with
    | .node _tag _name _low _high _loc _dml _cv _ty children =>
      unit_entry_children_paired fuel children code_offset root_group_id
        (assign_group g)

def unit_entry_children_paired : Nat → List VDie → Nat → Int → Int →
    Except String (List (SymbolVariable × Option SymbolVariable) × Int)
  | 0, _, _, _, _ => .error "recursion limit exceeded"
  | _fuel + 1, [], _, _, g => .ok ([], g)
  | fuel + 1, c :: rest, code_offset, root_group_id, g =>
    match c with
    | .node ctag cname clow chigh cloc cdml ccv cty _cchildren =>
      if ctag = DW_TAG_variable ∨ ctag = DW_TAG_formal_parameter then do
        let var ← transform_variable cname cloc cdml ccv cty root_group_id
        let (var2, inner, g2) ← structure_variable_rec_paired fuel c var g
        let (out, g3) ← unit_entry_children_paired fuel rest code_offset
          root_group_id g2
        .ok (inner ++ [(var2, none)] ++ out, g3)
      else if ctag = DW_TAG_lexical_block then
        match clow with
        | some (.Addr low_pc) =>
          match chigh with
          | some (.Udata size) =>
            if low_pc + size < 2 ^ 64 then
              if low_pc ≤ code_offset ∧ code_offset < low_pc + size then do
                let (vars, g2) ← unit_entry_rec_paired fuel c code_offset
                  root_group_id g
                let (out, g3) ← unit_entry_children_paired fuel rest code_offset
                  root_group_id g2
                .ok (vars ++ out, g3)
              else unit_entry_children_paired fuel rest code_offset root_group_id g
            else .error "attempt to add with overflow"
          | some (.Addr high_pc) =>
            if low_pc ≤ code_offset ∧ code_offset < high_pc then do
              let (vars, g2) ← unit_entry_rec_paired fuel c code_offset
                root_group_id g
              let (out, g3) ← unit_entry_children_paired fuel rest code_offset
                root_group_id g2
              .ok (vars ++ out, g3)
            else unit_entry_children_paired fuel rest code_offset root_group_id g
          | some _ => .error "unreachable high_pc form"
          | none => unit_entry_children_paired fuel rest code_offset root_group_id g
        | _ => unit_entry_children_paired fuel rest code_offset root_group_id g
      else if ctag = DW_TAG_namespace then do
        let nsvar0 := transform_namespace cname root_group_id
        let nsvar := { nsvar0 with child_group_id := some g }
        let (vars, g2) ← unit_entry_rec_paired fuel c code_offset g g
        let (out, g3) ← unit_entry_children_paired fuel rest code_offset
          root_group_id g2
        .ok (reparent nsvar vars ++ [(nsvar, none)] ++ out, g3)
      else unit_entry_children_paired fuel rest code_offset root_group_id g

end

theorem exceptMap_bind {ε α β γ : Type} (e : Except ε α)
    (k : α → Except ε β) (f : β → γ) :
    Except.map f (e >>= k) = e >>= fun a => Except.map f (k a) := by
  cases e <;> rfl

theorem exceptBind_map {ε α β γ : Type} (e : Except ε α) (f : α → β)
    (k : β → Except ε γ) :
    (Except.map f e) >>= k = e >>= fun a => k (f a) := by
  cases e <;> rfl

theorem exceptBindCongr {ε α β : Type} {e : Except ε α}
    {k1 k2 : α → Except ε β} (h : ∀ a, k1 a = k2 a) :
    e >>= k1 = e >>= k2 := by
  cases e with
  | error er => rfl
  | ok a => exact h a

/-- Projecting away the ghost parents of `reparent` output. -/
theorem reparent_fst (q : SymbolVariable)
    (prs : List (SymbolVariable × Option SymbolVariable)) :
    (reparent q prs).map (fun pr => pr.1) = prs.map (fun pr => pr.1) := by
  unfold reparent
  rw [List.map_map]
  congr 1
  funext pr
  rcases pr with ⟨v, p⟩
  cases p <;> rfl

/-- The instrumented structure walkers project onto the plain ones. -/
theorem erase_struct_walkers : ∀ fuel : Nat,
    (∀ (t : VDie) (p : SymbolVariable) (g : Int),
      Except.map (fun r => (r.1, r.2.1.map (fun pr => pr.1), r.2.2))
        (structure_variable_rec_paired fuel t p g) =
      structure_variable_recursive fuel t p g) ∧
    (∀ (cs : List VDie) (p : SymbolVariable) (cur g : Int),
      Except.map (fun r => (r.1.map (fun pr => pr.1), r.2))
        (structure_members_paired fuel cs p cur g) =
      structure_members fuel cs p cur g) := by
  intro fuel
  induction fuel with
  | zero => exact ⟨fun t p g => rfl, fun cs p cur g => rfl⟩
  | succ n ih =>
    constructor
    · intro t p g
      cases t with
      | node tag nm lo hi loc dml cv ty cs =>
        simp only [structure_variable_rec_paired, structure_variable_recursive]
        by_cases h1 : tag = DW_TAG_class_type ∨ tag = DW_TAG_structure_type ∨
            tag = DW_TAG_union_type
        · simp only [if_pos h1]
          rw [← ih.2]
          rw [exceptMap_bind, exceptBind_map]
          apply exceptBindCongr
          intro r
          rcases r with ⟨out, g2⟩
          rfl
        · simp only [if_neg h1]
          by_cases h2 : tag = DW_TAG_pointer_type ∨ tag = DW_TAG_reference_type
          · simp only [if_pos h2]
            cases ty with
            | some t2 => exact ih.1 t2 _ g
            | none => rfl
          · simp only [if_neg h2]
            by_cases h3 : tag = DW_TAG_const_type
            · simp only [if_pos h3]
              cases ty with
              | some t2 => exact ih.1 t2 p g
              | none => rfl
            · simp only [if_neg h3]
              cases ty with
              | some t2 => exact ih.1 t2 p g
              | none => rfl
    · intro cs p cur g
      cases cs with
      | nil => rfl
      | cons c rest =>
        cases c with
        | node ctag cname clow chigh cloc cdml ccv cty cch =>
          simp only [structure_members_paired, structure_members]
          by_cases h1 : ctag = DW_TAG_member
          · simp only [if_pos h1]
            rw [exceptMap_bind]
            apply exceptBindCongr
            intro var
            cases hty : var.ty_offset with
            | TypeRef tyDie =>
              simp only [hty]
              rw [← ih.1]
              rw [exceptMap_bind, exceptBind_map]
              apply exceptBindCongr
              intro r
              rcases r with ⟨var3, inner, g2⟩
              rw [← ih.2]
              rw [exceptMap_bind, exceptBind_map]
              apply exceptBindCongr
              intro r2
              rcases r2 with ⟨out, g3⟩
              simp [Except.map, List.map_append]
            | Description d =>
              simp only [hty]
              rw [← ih.2]
              rw [exceptMap_bind, exceptBind_map]
              apply exceptBindCongr
              intro r
              rcases r with ⟨out, g3⟩
              rfl
          · simp only [if_neg h1]
            exact ih.2 rest p cur g

/-- The instrumented unit-entry walkers project onto the plain ones. -/
theorem erase_unit_walkers : ∀ fuel : Nat,
    (∀ (t : VDie) (co : Nat) (r g : Int),
      Except.map (fun res => (res.1.map (fun pr => pr.1), res.2))
        (unit_entry_rec_paired fuel t co r g) =
      variables_in_unit_entry_recursive fuel t co r g) ∧
    (∀ (cs : List VDie) (co : Nat) (r g : Int),
      Except.map (fun res => (res.1.map (fun pr => pr.1), res.2))
        (unit_entry_children_paired fuel cs co r g) =
      unit_entry_children fuel cs co r g) := by
  intro fuel
  induction fuel with
  | zero => exact ⟨fun t co r g => rfl, fun cs co r g => rfl⟩
  | succ n ih =>
    constructor
    · intro t co r g
      cases t with
      | node tag nm lo hi loc dml cv ty cs =>
        simp only [unit_entry_rec_paired, variables_in_unit_entry_recursive]
        exact ih.2 cs co r (assign_group g)
    · intro cs co r g
      cases cs with
      | nil => rfl
      | cons c rest =>
        cases c with
        | node ctag cname clow chigh cloc cdml ccv cty cch =>
          simp only [unit_entry_children_paired, unit_entry_children]
          by_cases h1 : ctag = DW_TAG_variable ∨ ctag = DW_TAG_formal_parameter
          · simp only [if_pos h1]
            rw [exceptMap_bind]
            apply exceptBindCongr
            intro var
            rw [← (erase_struct_walkers n).1]
            rw [exceptMap_bind, exceptBind_map]
            apply exceptBindCongr
            intro rr
            rcases rr with ⟨var2, inner, g2⟩
            rw [← ih.2]
            rw [exceptMap_bind, exceptBind_map]
            apply exceptBindCongr
            intro r2
            rcases r2 with ⟨out, g3⟩
            simp [Except.map, List.map_append]
          · simp only [if_neg h1]
            by_cases h2 : ctag = DW_TAG_lexical_block
            · simp only [if_pos h2]
              cases clow with
              | none => exact ih.2 rest co r g
              | some a =>
                cases a with
                | Udata n2 => exact ih.2 rest co r g
                | Sdata n2 => exact ih.2 rest co r g
                | Data1 n2 => exact ih.2 rest co r g
                | Data2 n2 => exact ih.2 rest co r g
                | Data4 n2 => exact ih.2 rest co r g
                | Data8 n2 => exact ih.2 rest co r g
                | Exprloc bs => exact ih.2 rest co r g
                | Block bs => exact ih.2 rest co r g
                | Str s2 => exact ih.2 rest co r g
                | UnitRef o2 => exact ih.2 rest co r g
                | OtherAttr => exact ih.2 rest co r g
                | Addr low_pc =>
                  cases chigh with
                  | none => exact ih.2 rest co r g
                  | some b =>
                    cases b with
                    | Addr high_pc =>
                      by_cases h4 : low_pc ≤ co ∧ co < high_pc
                      · simp only [if_pos h4]
                        rw [← ih.1]
                        rw [exceptMap_bind, exceptBind_map]
                        apply exceptBindCongr
                        intro rr
                        rcases rr with ⟨vars, g2⟩
                        rw [← ih.2]
                        rw [exceptMap_bind, exceptBind_map]
                        apply exceptBindCongr
                        intro r2
                        rcases r2 with ⟨out, g3⟩
                        simp [Except.map, List.map_append]
                      · simp only [if_neg h4]
                        exact ih.2 rest co r g
                    | Sdata n2 => rfl
                    | Data1 n2 => rfl
                    | Data2 n2 => rfl
                    | Data4 n2 => rfl
                    | Data8 n2 => rfl
                    | Exprloc bs => rfl
                    | Block bs => rfl
                    | Str s2 => rfl
                    | UnitRef o2 => rfl
                    | OtherAttr => rfl
                    | Udata size =>
                      by_cases h3 : low_pc + size < 2 ^ 64
                      · simp only [if_pos h3]
                        by_cases h4 : low_pc ≤ co ∧ co < low_pc + size
                        · simp only [if_pos h4]
                          rw [← ih.1]
                          rw [exceptMap_bind, exceptBind_map]
                          apply exceptBindCongr
                          intro rr
                          rcases rr with ⟨vars, g2⟩
                          rw [← ih.2]
                          rw [exceptMap_bind, exceptBind_map]
                          apply exceptBindCongr
                          intro r2
                          rcases r2 with ⟨out, g3⟩
                          simp [Except.map, List.map_append]
                        · simp only [if_neg h4]
                          exact ih.2 rest co r g
                      · simp only [if_neg h3]
                        rfl
            · simp only [if_neg h2]
              by_cases h5 : ctag = DW_TAG_namespace
              · simp only [if_pos h5]
                rw [← ih.1]
                rw [exceptMap_bind, exceptBind_map]
                apply exceptBindCongr
                intro rr
                rcases rr with ⟨vars, g2⟩
                rw [← ih.2]
                rw [exceptMap_bind, exceptBind_map]
                apply exceptBindCongr
                intro r2
                rcases r2 with ⟨out, g3⟩
                simp [Except.map, List.map_append, reparent_fst]
              · simp only [if_neg h5]
                exact ih.2 rest co r g

/-- Pairing invariant of the instrumented structure walkers: the walked
variable keeps its group id and name, and every emitted pair points at a
parent whose `child_group_id` is exactly the member's `group_id`. -/
theorem pair_struct_walkers : ∀ fuel : Nat,
    (∀ (t : VDie) (p : SymbolVariable) (g : Int) (p2 : SymbolVariable)
        (prs : List (SymbolVariable × Option SymbolVariable)) (g2 : Int),
      structure_variable_rec_paired fuel t p g = .ok (p2, prs, g2) →
      p2.group_id = p.group_id ∧ p2.name = p.name ∧
      ∀ pr ∈ prs, ∃ q, pr.2 = some q ∧
        q.child_group_id = some pr.1.group_id) ∧
    (∀ (cs : List VDie) (p : SymbolVariable) (cur g : Int)
        (prs : List (SymbolVariable × Option SymbolVariable)) (g2 : Int),
      p.child_group_id = some cur →
      structure_members_paired fuel cs p cur g = .ok (prs, g2) →
      ∀ pr ∈ prs, ∃ q, pr.2 = some q ∧
        q.child_group_id = some pr.1.group_id) := by
  intro fuel
  induction fuel with
  | zero =>
    constructor
    · intro t p g p2 prs g2 h
      exact Except.noConfusion h
    · intro cs p cur g prs g2 hp h
      exact Except.noConfusion h
  | succ n ih =>
    constructor
    · intro t p g p2 prs g2 h
      cases t with
      | node tag nm lo hi loc dml cv ty cs =>
        simp only [structure_variable_rec_paired] at h
        by_cases h1 : tag = DW_TAG_class_type ∨ tag = DW_TAG_structure_type ∨
            tag = DW_TAG_union_type
        · simp only [if_pos h1] at h
          cases hm : structure_members_paired n cs
              { p with child_group_id := some g } g (g + 1) with
          | error e =>
            rw [hm] at h
            exact Except.noConfusion h
          | ok r =>
            rcases r with ⟨out, g3⟩
            rw [hm] at h
            simp only [bind, Except.bind, Except.ok.injEq, Prod.mk.injEq] at h
            obtain ⟨ha, hb, hc⟩ := h
            subst ha
            subst hb
            subst hc
            refine ⟨rfl, rfl, ?_⟩
            exact ih.2 cs { p with child_group_id := some g } g (g + 1)
              out g3 rfl hm
        · simp only [if_neg h1] at h
          by_cases h2 : tag = DW_TAG_pointer_type ∨ tag = DW_TAG_reference_type
          · simp only [if_pos h2] at h
            cases ty with
            | some t2 =>
              obtain ⟨ha, hb, hc⟩ := ih.1 t2
                { p with contents := p.contents ++ [.Pointer] } g p2 prs g2 h
              exact ⟨ha, hb, hc⟩
            | none =>
              simp only [Except.ok.injEq, Prod.mk.injEq] at h
              obtain ⟨ha, hb, hc⟩ := h
              subst ha
              subst hb
              subst hc
              refine ⟨rfl, rfl, ?_⟩
              intro pr hpr
              exact absurd hpr (List.not_mem_nil pr)
          · simp only [if_neg h2] at h
            by_cases h3 : tag = DW_TAG_const_type
            · simp only [if_pos h3] at h
              cases ty with
              | some t2 => exact ih.1 t2 p g p2 prs g2 h
              | none =>
                simp only [Except.ok.injEq, Prod.mk.injEq] at h
                obtain ⟨ha, hb, hc⟩ := h
                subst ha
                subst hb
                subst hc
                refine ⟨rfl, rfl, ?_⟩
                intro pr hpr
                exact absurd hpr (List.not_mem_nil pr)
            · simp only [if_neg h3] at h
              cases ty with
              | some t2 => exact ih.1 t2 p g p2 prs g2 h
              | none =>
                simp only [Except.ok.injEq, Prod.mk.injEq] at h
                obtain ⟨ha, hb, hc⟩ := h
                subst ha
                subst hb
                subst hc
                refine ⟨rfl, rfl, ?_⟩
                intro pr hpr
                exact absurd hpr (List.not_mem_nil pr)
    · intro cs p cur g prs g2 hp h
      cases cs with
      | nil =>
        simp only [structure_members_paired, Except.ok.injEq,
          Prod.mk.injEq] at h
        obtain ⟨ha, hb⟩ := h
        subst ha
        intro pr hpr
        exact absurd hpr (List.not_mem_nil pr)
      | cons c rest =>
        cases c with
        | node ctag cname clow chigh cloc cdml ccv cty cch =>
          simp only [structure_members_paired] at h
          by_cases h1 : ctag = DW_TAG_member
          · simp only [if_pos h1] at h
            cases htv : transform_variable cname cloc cdml ccv cty cur with
            | error e =>
              rw [htv] at h
              exact Except.noConfusion h
            | ok var =>
              rw [htv] at h
              simp only [bind, Except.bind] at h
              cases hty : var.ty_offset with
              | TypeRef tyDie =>
                simp only [hty] at h
                cases hsv : structure_variable_rec_paired n tyDie
                    { name := some (var.name.getD "<unnamed>"),
                      display_name := some ((p.name.getD "<unnamed>") ++ "." ++
                        (var.name.getD "<unnamed>")),
                      contents := p.contents ++ var.contents,
                      ty_offset := TypeDescripter.TypeRef tyDie,
                      group_id := var.group_id,
                      child_group_id := var.child_group_id } g with
                | error e =>
                  simp only [hsv] at h
                  exact Except.noConfusion h
                | ok r =>
                  rcases r with ⟨var3, inner, gA⟩
                  simp only [hsv] at h
                  cases hmm : structure_members_paired n rest p cur gA with
                  | error e =>
                    simp only [hmm] at h
                    exact Except.noConfusion h
                  | ok r2 =>
                    rcases r2 with ⟨out, gB⟩
                    simp only [hmm, Except.ok.injEq, Prod.mk.injEq] at h
                    obtain ⟨ha, hb⟩ := h
                    subst ha
                    subst hb
                    intro pr hpr
                    rcases List.mem_append.mp hpr with h2 | h2
                    · rcases List.mem_append.mp h2 with h3 | h3
                      · exact (ih.1 tyDie _ g var3 inner gA hsv).2.2 pr h3
                      · have hpr2 : pr = (var3, some p) := List.mem_singleton.mp h3
                        subst hpr2
                        refine ⟨p, rfl, ?_⟩
                        have hA : var3.group_id = var.group_id :=
                          (ih.1 tyDie _ g var3 inner gA hsv).1
                        rw [hp, hA,
                          (transform_variable_fields cname cloc cdml ccv cty
                            cur var htv).1]
                    · exact ih.2 rest p cur gA out gB hp hmm pr h2
              | Description d =>
                simp only [hty] at h
                cases hmm : structure_members_paired n rest p cur g with
                | error e =>
                  simp only [hmm] at h
                  exact Except.noConfusion h
                | ok r2 =>
                  rcases r2 with ⟨out, gB⟩
                  simp only [hmm, Except.ok.injEq, Prod.mk.injEq] at h
                  obtain ⟨ha, hb⟩ := h
                  subst ha
                  subst hb
                  intro pr hpr
                  rcases List.mem_cons.mp hpr with h2 | h2
                  · subst h2
                    refine ⟨p, rfl, ?_⟩
                    rw [hp,
                      (transform_variable_fields cname cloc cdml ccv cty
                        cur var htv).1]
                  · exact ih.2 rest p cur g out gB hp hmm pr h2
          · simp only [if_neg h1] at h
            exact ih.2 rest p cur g prs g2 hp h

/-- A pair that certainly has a parent satisfies the group discipline for
any root. -/
theorem pairSome_to_prop {r : Int} {pr : SymbolVariable × Option SymbolVariable}
    (h : ∃ q, pr.2 = some q ∧ q.child_group_id = some pr.1.group_id) :
    (pr.2 = none → pr.1.group_id = r) ∧
    (∀ q, pr.2 = some q → q.child_group_id = some pr.1.group_id) := by
  obtain ⟨q, hq1, hq2⟩ := h
  constructor
  · intro hn
    rw [hq1] at hn
    exact Option.noConfusion hn
  · intro q2 hq3
    rw [hq1] at hq3
    injection hq3 with he
    rw [← he]
    exact hq2

/-- Reattaching orphan pairs to a namespace variable `q` whose
`child_group_id` is the inner root `g` preserves the group discipline,
now relative to the outer root `r`. -/
theorem reparent_pair {q : SymbolVariable} {g r : Int}
    {prs : List (SymbolVariable × Option SymbolVariable)}
    (hq : q.child_group_id = some g)
    (hbase : ∀ pr ∈ prs, (pr.2 = none → pr.1.group_id = g) ∧
      ∀ p2, pr.2 = some p2 → p2.child_group_id = some pr.1.group_id) :
    ∀ pr ∈ reparent q prs,
      (pr.2 = none → pr.1.group_id = r) ∧
      ∀ p2, pr.2 = some p2 → p2.child_group_id = some pr.1.group_id := by
  intro pr hpr
  unfold reparent at hpr
  obtain ⟨pr0, hpr0, heq⟩ := List.mem_map.mp hpr
  obtain ⟨hb1, hb2⟩ := hbase pr0 hpr0
  cases hp0 : pr0.2 with
  | none =>
    simp only [hp0] at heq
    subst heq
    constructor
    · intro hn
      exact Option.noConfusion hn
    · intro p2 hp2
      injection hp2 with he
      rw [← he, hq, hb1 hp0]
  | some p0 =>
    simp only [hp0] at heq
    subst heq
    constructor
    · intro hn
      exact Option.noConfusion hn
    · intro p2 hp2
      injection hp2 with he
      rw [← he]
      exact hb2 p0 hp0

/-- Pairing invariant of the instrumented unit-entry walkers: orphan pairs
carry the root group id, and parented pairs satisfy
`parent.child_group_id = some child.group_id`. -/
theorem pair_unit_walkers : ∀ fuel : Nat,
    (∀ (t : VDie) (co : Nat) (r g : Int)
        (prs : List (SymbolVariable × Option SymbolVariable)) (g2 : Int),
      unit_entry_rec_paired fuel t co r g = .ok (prs, g2) →
      ∀ pr ∈ prs, (pr.2 = none → pr.1.group_id = r) ∧
        ∀ q, pr.2 = some q → q.child_group_id = some pr.1.group_id) ∧
    (∀ (cs : List VDie) (co : Nat) (r g : Int)
        (prs : List (SymbolVariable × Option SymbolVariable)) (g2 : Int),
      unit_entry_children_paired fuel cs co r g = .ok (prs, g2) →
      ∀ pr ∈ prs, (pr.2 = none → pr.1.group_id = r) ∧
        ∀ q, pr.2 = some q → q.child_group_id = some pr.1.group_id) := by
  intro fuel
  induction fuel with
  | zero =>
    constructor
    · intro t co r g prs g2 h
      exact Except.noConfusion h
    · intro cs co r g prs g2 h
      exact Except.noConfusion h
  | succ n ih =>
    constructor
    · intro t co r g prs g2 h
      cases t with
      | node tag nm lo hi loc dml cv ty cs =>
        simp only [unit_entry_rec_paired] at h
        exact ih.2 cs co r (assign_group g) prs g2 h
    · intro cs co r g prs g2 h
      cases cs with
      | nil =>
        simp only [unit_entry_children_paired, Except.ok.injEq,
          Prod.mk.injEq] at h
        obtain ⟨ha, hb⟩ := h
        subst ha
        intro pr hpr
        exact absurd hpr (List.not_mem_nil pr)
      | cons c rest =>
        cases c with
        | node ctag cname clow chigh cloc cdml ccv cty cch =>
          simp only [unit_entry_children_paired] at h
          by_cases h1 : ctag = DW_TAG_variable ∨ ctag = DW_TAG_formal_parameter
          · simp only [if_pos h1, bind, Except.bind] at h
            cases htv : transform_variable cname cloc cdml ccv cty r with
            | error e =>
              simp only [htv] at h
              exact Except.noConfusion h
            | ok var =>
              simp only [htv] at h
              cases hsv : structure_variable_rec_paired n
                  (VDie.node ctag cname clow chigh cloc cdml ccv cty cch)
                  var g with
              | error e =>
                simp only [hsv] at h
                exact Except.noConfusion h
              | ok rv =>
                rcases rv with ⟨var2, inner, gA⟩
                simp only [hsv] at h
                cases hch : unit_entry_children_paired n rest co r gA with
                | error e =>
                  simp only [hch] at h
                  exact Except.noConfusion h
                | ok r2 =>
                  rcases r2 with ⟨out, gB⟩
                  simp only [hch, Except.ok.injEq, Prod.mk.injEq] at h
                  obtain ⟨ha, hb⟩ := h
                  subst ha
                  subst hb
                  intro pr hpr
                  rcases List.mem_append.mp hpr with h2 | h2
                  · rcases List.mem_append.mp h2 with h3 | h3
                    · exact pairSome_to_prop
                        (((pair_struct_walkers n).1 _ var g var2 inner gA
                          hsv).2.2 pr h3)
                    · have hpr2 : pr = (var2, none) := List.mem_singleton.mp h3
                      subst hpr2
                      constructor
                      · intro hn
                        have hA : var2.group_id = var.group_id :=
                          ((pair_struct_walkers n).1 _ var g var2 inner gA
                            hsv).1
                        rw [hA,
                          (transform_variable_fields cname cloc cdml ccv cty
                            r var htv).1]
                      · intro q hq
                        exact Option.noConfusion hq
                  · exact ih.2 rest co r gA out gB hch pr h2
          · simp only [if_neg h1] at h
            by_cases h2 : ctag = DW_TAG_lexical_block
            · simp only [if_pos h2] at h
              cases clow with
              | none => exact ih.2 rest co r g prs g2 h
              | some a =>
                cases a with
                | Udata n2 => exact ih.2 rest co r g prs g2 h
                | Sdata n2 => exact ih.2 rest co r g prs g2 h
                | Data1 n2 => exact ih.2 rest co r g prs g2 h
                | Data2 n2 => exact ih.2 rest co r g prs g2 h
                | Data4 n2 => exact ih.2 rest co r g prs g2 h
                | Data8 n2 => exact ih.2 rest co r g prs g2 h
                | Exprloc bs => exact ih.2 rest co r g prs g2 h
                | Block bs => exact ih.2 rest co r g prs g2 h
                | Str s2 => exact ih.2 rest co r g prs g2 h
                | UnitRef o2 => exact ih.2 rest co r g prs g2 h
                | OtherAttr => exact ih.2 rest co r g prs g2 h
                | Addr low_pc =>
                  cases chigh with
                  | none => exact ih.2 rest co r g prs g2 h
                  | some b =>
                    cases b with
                    | Sdata n2 => exact Except.noConfusion h
                    | Data1 n2 => exact Except.noConfusion h
                    | Data2 n2 => exact Except.noConfusion h
                    | Data4 n2 => exact Except.noConfusion h
                    | Data8 n2 => exact Except.noConfusion h
                    | Exprloc bs => exact Except.noConfusion h
                    | Block bs => exact Except.noConfusion h
                    | Str s2 => exact Except.noConfusion h
                    | UnitRef o2 => exact Except.noConfusion h
                    | OtherAttr => exact Except.noConfusion h
                    | Udata size =>
                      by_cases h3 : low_pc + size < 2 ^ 64
                      · simp only [if_pos h3] at h
                        by_cases h4 : low_pc ≤ co ∧ co < low_pc + size
                        · simp only [if_pos h4, bind, Except.bind] at h
                          cases hv : unit_entry_rec_paired n
                              (VDie.node ctag cname
                                (some (AttrValue.Addr low_pc))
                                (some (AttrValue.Udata size)) cloc cdml ccv
                                cty cch) co r g with
                          | error e =>
                            simp only [hv] at h
                            exact Except.noConfusion h
                          | ok rv =>
                            rcases rv with ⟨vars, gA⟩
                            simp only [hv] at h
                            cases hch : unit_entry_children_paired n rest co
                                r gA with
                            | error e =>
                              simp only [hch] at h
                              exact Except.noConfusion h
                            | ok r2 =>
                              rcases r2 with ⟨out, gB⟩
                              simp only [hch, Except.ok.injEq,
                                Prod.mk.injEq] at h
                              obtain ⟨ha, hb⟩ := h
                              subst ha
                              subst hb
                              intro pr hpr
                              rcases List.mem_append.mp hpr with h5 | h5
                              · exact ih.1 _ co r g vars gA hv pr h5
                              · exact ih.2 rest co r gA out gB hch pr h5
                        · simp only [if_neg h4] at h
                          exact ih.2 rest co r g prs g2 h
                      · simp only [if_neg h3] at h
                        exact Except.noConfusion h
                    | Addr high_pc =>
                      by_cases h4 : low_pc ≤ co ∧ co < high_pc
                      · simp only [if_pos h4, bind, Except.bind] at h
                        cases hv : unit_entry_rec_paired n
                            (VDie.node ctag cname
                              (some (AttrValue.Addr low_pc))
                              (some (AttrValue.Addr high_pc)) cloc cdml ccv
                              cty cch) co r g with
                        | error e =>
                          simp only [hv] at h
                          exact Except.noConfusion h
                        | ok rv =>
                          rcases rv with ⟨vars, gA⟩
                          simp only [hv] at h
                          cases hch : unit_entry_children_paired n rest co
                              r gA with
                          | error e =>
                            simp only [hch] at h
                            exact Except.noConfusion h
                          | ok r2 =>
                            rcases r2 with ⟨out, gB⟩
                            simp only [hch, Except.ok.injEq,
                              Prod.mk.injEq] at h
                            obtain ⟨ha, hb⟩ := h
                            subst ha
                            subst hb
                            intro pr hpr
                            rcases List.mem_append.mp hpr with h5 | h5
                            · exact ih.1 _ co r g vars gA hv pr h5
                            · exact ih.2 rest co r gA out gB hch pr h5
                      · simp only [if_neg h4] at h
                        exact ih.2 rest co r g prs g2 h
            · simp only [if_neg h2] at h
              by_cases h5 : ctag = DW_TAG_namespace
              · simp only [if_pos h5, bind, Except.bind] at h
                cases hv : unit_entry_rec_paired n
                    (VDie.node ctag cname clow chigh cloc cdml ccv cty cch)
                    co g g with
                | error e =>
                  simp only [hv] at h
                  exact Except.noConfusion h
                | ok rv =>
                  rcases rv with ⟨vars, gA⟩
                  simp only [hv] at h
                  cases hch : unit_entry_children_paired n rest co r gA with
                  | error e =>
                    simp only [hch] at h
                    exact Except.noConfusion h
                  | ok r2 =>
                    rcases r2 with ⟨out, gB⟩
                    simp only [hch, Except.ok.injEq, Prod.mk.injEq] at h
                    obtain ⟨ha, hb⟩ := h
                    subst ha
                    subst hb
                    intro pr hpr
                    rcases List.mem_append.mp hpr with h6 | h6
                    · rcases List.mem_append.mp h6 with h7 | h7
                      · exact reparent_pair rfl
                          (ih.1 _ co g g vars gA hv) pr h7
                      · have hpr2 := List.mem_singleton.mp h7
                        subst hpr2
                        constructor
                        · intro hn
                          rfl
                        · intro q hq
                          exact Option.noConfusion hq
                    · exact ih.2 rest co r gA out gB hch pr h6
              · simp only [if_neg h5] at h
                exact ih.2 rest co r g prs g2 h

/-- `variables_in_unit_entry` (variables.rs lines 61-82): the recursion
starts with `group_id` aliasing `root_group_id`, so both begin equal. -/
def variables_in_unit_entry (fuel : Nat) (t : VDie) (code_offset : Nat)
    (root_group_id : Int) : Except String (List SymbolVariable) :=
  (variables_in_unit_entry_recursive fuel t code_offset root_group_id
    root_group_id).map (fun res => res.1)
/-- Modelled from the spec: the facade (`dwarf/mod.rs`) that chooses root
group ids is not among the sources under src/; per spec section 6, local
variable listings are rooted at group 1000. -/
def facade_local_root_group : Int := 1000

/-- Modelled from the spec: per spec section 6, global variable listings
are rooted at group 1001 (facade source not under src/). -/
def facade_global_root_group : Int := 1001

/-- C5: group-id discipline of variable discovery.  (1) On entering a node
the running group id is remapped by exactly the claimed rule:
`(g - 1000 + 1) * 10000` when `g < 10000`, else `g + 1`.  (2) The
spec-modelled facade root ids 1000 (locals) and 1001 (globals) lie in
`[1000, 10000)`.  (3) The parent-instrumented walker projects onto
`variables_in_unit_entry`, so its pairs describe the actual output.
(4) In every produced list, a variable emitted under a parent (a
struct/class/union member, or a variable inside a namespace) satisfies
`parent.child_group_id = some child.group_id`, and variables emitted at
top level carry the root group id. -/
theorem variable_group_discipline :
    (∀ (fuel tag : Nat) (nm : Option String)
        (lo hi loc dml cv : Option AttrValue) (ty : Option VDie)
        (cs : List VDie) (co : Nat) (r g : Int),
      variables_in_unit_entry_recursive (fuel + 1)
          (VDie.node tag nm lo hi loc dml cv ty cs) co r g =
        unit_entry_children fuel cs co r
          (if g < 10000 then (g - 1000 + 1) * 10000 else g + 1)) ∧
    (1000 ≤ facade_local_root_group ∧ facade_local_root_group < 10000 ∧
      1000 ≤ facade_global_root_group ∧ facade_global_root_group < 10000) ∧
    (∀ (fuel : Nat) (t : VDie) (co : Nat) (r : Int),
      Except.map (fun res => res.1.map (fun pr => pr.1))
        (unit_entry_rec_paired fuel t co r r) =
      variables_in_unit_entry fuel t co r) ∧
    (∀ (fuel : Nat) (t : VDie) (co : Nat) (r : Int)
        (prs : List (SymbolVariable × Option SymbolVariable)) (g2 : Int),
      unit_entry_rec_paired fuel t co r r = .ok (prs, g2) →
      ∀ pr ∈ prs, (pr.2 = none → pr.1.group_id = r) ∧
        ∀ q, pr.2 = some q → q.child_group_id = some pr.1.group_id) := by
  refine ⟨?_, ?_, ?_, ?_⟩
  · intro fuel tag nm lo hi loc dml cv ty cs co r g
    rfl
  · exact ⟨by decide, by decide, by decide, by decide⟩
  · intro fuel t co r
    simp only [variables_in_unit_entry]
    rw [← (erase_unit_walkers fuel).1 t co r r]
    cases unit_entry_rec_paired fuel t co r r with
    | error e => rfl
    | ok v => rfl
  · intro fuel t co r prs g2 h
    exact (pair_unit_walkers fuel).1 t co r r prs g2 h

def exampleBaseDie : VDie :=
  .node DW_TAG_base_type (some "int") none none none none none none []

def exampleMemberDie : VDie :=
  .node DW_TAG_member (some "m") none none none (some (.Udata 4)) none
    (some exampleBaseDie) []

def exampleStructDie : VDie :=
  .node DW_TAG_structure_type (some "S") none none none none none none
    [exampleMemberDie]

def exampleVarDie : VDie :=
  .node DW_TAG_variable (some "x") none none
    (some (.Exprloc [0xed, 0x00, 0x00])) none none (some exampleStructDie) []

def exampleNamespaceDie : VDie :=
  .node DW_TAG_namespace (some "ns") none none none none none none
    [exampleVarDie]

def exampleUnitDie : VDie :=
  .node 0x11 none none none none none none none [exampleNamespaceDie]

/-- Concrete run for the C5 theorem: a namespace holding a struct variable
with one member; the walker emits member, variable and namespace with
groups 10001, 10000 and 1000, and the pairing discipline holds. -/
theorem variable_group_discipline_witness :
    ∃ (prs : List (SymbolVariable × Option SymbolVariable)) (g2 : Int),
      unit_entry_rec_paired 10 exampleUnitDie 0 1000 1000 = .ok (prs, g2) ∧
      prs.map (fun pr => pr.1.group_id) = [10001, 10000, 1000] ∧
      ∀ pr ∈ prs, (pr.2 = none → pr.1.group_id = 1000) ∧
        ∀ q, pr.2 = some q → q.child_group_id = some pr.1.group_id := by
  refine ⟨_, _, rfl, rfl, ?_⟩
  exact variable_group_discipline.2.2.2 10 exampleUnitDie 0 1000 _ _ rfl

/-- The filter predicate of `evaluate_variable_from_string`
(variables.rs lines 358-365): a candidate matches when its display name
equals the rewritten query or the `this.`-prefixed rewritten query. -/
def variable_matches (name2 this_name : String) (v : SymbolVariable) : Bool :=
  match v.display_name with
  | some vname => decide (vname = name2 ∨ vname = this_name)
  | none => false

/-- The selection step of `evaluate_variable_from_string` (variables.rs
lines 347-372): rewrite `->` to `.`, build the `this.` alternative, take
the first matching variable, and fail with the
not-a-valid-variable-name error when none matches. -/
def select_variable (name : String) (vs : List SymbolVariable) :
    Except String SymbolVariable :=
  let name2 := strReplace name "->" "."
  let this_name := "this." ++ name2
  match vs.find? (variable_matches name2 this_name) with
  | some v => .ok v
  | none => .error ("'" ++ name2 ++ "' is not valid variable name")

/-- Modelled from the spec: the host boundary (the facade in
`dwarf/mod.rs`, which is not among the sources under src/) catches an Err
from variable evaluation, logs the message, and reports no result
(spec section 7). -/
def host_boundary {α : Type} (res : Except String α) :
    Option α × List String :=
  match res with
  | .ok v => (some v, [])
  | .error e => (none, [e])

/-- If everything before `v` fails the predicate and `v` passes it, `v` is
the found element. -/
theorem find?_append_first {α : Type} (p : α → Bool) :
    ∀ (pre : List α) (v : α) (post : List α), p v = true →
      (∀ u ∈ pre, p u = false) →
      (pre ++ v :: post).find? p = some v := by
  intro pre
  induction pre with
  | nil =>
    intro v post hv _
    simp [List.find?_cons_of_pos _ hv]
  | cons x rest ih =>
    intro v post hv hall
    have hx : p x = false := hall x (List.mem_cons_self x rest)
    have hx2 : ¬ p x = true := by simp [hx]
    rw [List.cons_append, List.find?_cons_of_neg _ hx2]
    exact ih v post hv (fun u hu => hall u (List.mem_cons_of_mem x hu))

/-- C10: variable selection by name.  Writing `nm` for the query with
every `->` replaced by `.`: a candidate matches iff its display name is
`nm` or `this.` ++ `nm`; a successful selection returns a matching
variable and everything before it in list order fails to match;
conversely the first match is selected; when nothing matches, selection
fails with the not-a-valid-variable-name error, which the spec-modelled
host boundary surfaces as a logged message plus no result rather than a
silent none. -/
theorem evaluate_variable_selection :
    (∀ (name : String) (v : SymbolVariable),
      variable_matches (strReplace name "->" ".")
          ("this." ++ strReplace name "->" ".") v = true ↔
        (v.display_name = some (strReplace name "->" ".") ∨
          v.display_name = some ("this." ++ strReplace name "->" "."))) ∧
    (∀ (name : String) (vars : List SymbolVariable) (v : SymbolVariable),
      select_variable name vars = .ok v →
      variable_matches (strReplace name "->" ".")
          ("this." ++ strReplace name "->" ".") v = true ∧
        ∃ pre post, vars = pre ++ v :: post ∧
          ∀ u ∈ pre, variable_matches (strReplace name "->" ".")
            ("this." ++ strReplace name "->" ".") u = false) ∧
    (∀ (name : String) (pre : List SymbolVariable) (v : SymbolVariable)
        (post : List SymbolVariable),
      variable_matches (strReplace name "->" ".")
          ("this." ++ strReplace name "->" ".") v = true →
      (∀ u ∈ pre, variable_matches (strReplace name "->" ".")
          ("this." ++ strReplace name "->" ".") u = false) →
      select_variable name (pre ++ v :: post) = .ok v) ∧
    (∀ (name : String) (vars : List SymbolVariable),
      (∀ u ∈ vars, variable_matches (strReplace name "->" ".")
          ("this." ++ strReplace name "->" ".") u = false) →
      select_variable name vars =
        .error ("'" ++ strReplace name "->" "." ++
          "' is not valid variable name")) ∧
    (∀ (name : String) (vars : List SymbolVariable),
      (∀ u ∈ vars, variable_matches (strReplace name "->" ".")
          ("this." ++ strReplace name "->" ".") u = false) →
      host_boundary (select_variable name vars) =
        (none, ["'" ++ strReplace name "->" "." ++
          "' is not valid variable name"])) := by
  have hnone : ∀ (name : String) (vars : List SymbolVariable),
      (∀ u ∈ vars, variable_matches (strReplace name "->" ".")
        ("this." ++ strReplace name "->" ".") u = false) →
      vars.find? (variable_matches (strReplace name "->" ".")
        ("this." ++ strReplace name "->" ".")) = none := by
    intro name vars hall
    apply List.find?_eq_none.mpr
    intro a ha
    simp [hall a ha]
  refine ⟨?_, ?_, ?_, ?_, ?_⟩
  · intro name v
    cases hd : v.display_name with
    | none => simp [variable_matches, hd]
    | some vn => simp [variable_matches, hd]
  · intro name vars v h
    simp only [select_variable] at h
    cases hf : vars.find? (variable_matches (strReplace name "->" ".")
        ("this." ++ strReplace name "->" ".")) with
    | none =>
      rw [hf] at h
      exact Except.noConfusion h
    | some w =>
      rw [hf] at h
      injection h with he
      subst he
      constructor
      · exact List.find?_some hf
      · obtain ⟨l1, l2, hsplit, hall⟩ := find?_split _ vars w hf
        exact ⟨l1, l2, hsplit, hall⟩
  · intro name pre v post hv hall
    simp only [select_variable]
    rw [find?_append_first _ pre v post hv hall]
  · intro name vars hall
    simp only [select_variable]
    rw [hnone name vars hall]
  · intro name vars hall
    simp only [select_variable]
    rw [hnone name vars hall]
    rfl

def exampleVariableList : List SymbolVariable :=
  [ { name := some "other", display_name := some "other", contents := [],
      ty_offset := .Description "int", group_id := 1000,
      child_group_id := none },
    { name := some "pos", display_name := some "this.obj.pos",
      contents := [], ty_offset := .Description "S", group_id := 1000,
      child_group_id := none } ]

/-- Concrete run for the C10 theorem: querying `obj->pos` selects the
`this.obj.pos` variable (the arrow is rewritten and the `this.` prefix
tried), and an unmatched query surfaces as a logged error plus no
result. -/
theorem evaluate_variable_selection_witness :
    (∃ v, select_variable "obj->pos" exampleVariableList = .ok v ∧
      v.display_name = some "this.obj.pos" ∧
      variable_matches (strReplace "obj->pos" "->" ".")
        ("this." ++ strReplace "obj->pos" "->" ".") v = true) ∧
    host_boundary (select_variable "missing" exampleVariableList) =
      (none, ["'missing' is not valid variable name"]) := by
  constructor
  · refine ⟨_, rfl, rfl, ?_⟩
    exact (evaluate_variable_selection.2.1 "obj->pos"
      exampleVariableList _ rfl).1
  · exact evaluate_variable_selection.2.2.2.2 "missing"
      exampleVariableList (by decide)

end CdpGdbBridge















